import Mathlib

/-!
The chat server `server.js`: text helpers, dataset matcher, name dialogue, web
fallback and chat handler.

A shallow embedding of `backend/server.js`.

Conventions of the embedding.

* A JavaScript string is a `List Char`; a value that is "a string or
  `null`/`undefined`" is an `Option (List Char)`.
* A JavaScript number produced by `inter / union` is kept as the exact rational
  `inter / union`; the literals `0.8` and `0.55` are `4/5` and `11/20`.  IEEE
  division is correctly rounded and monotone, so every comparison the program
  makes between two such quotients agrees with the comparison of the rationals
  as long as the keyword sets have fewer than `2^26` elements.
* The result of an outbound HTTP call is an argument (an outcome), since the
  program consults each service at most once per request.
* A character outside the Basic Multilingual Plane is one `Char` here and two
  code units in JavaScript.  Both are outside `\w` and `\s`, and `normalize`
  turns either into one space, so the text helpers do not tell them apart.
  Where the program takes the `length` of a string (in `searchCodeOnline`),
  `jsLength` counts the code units.
-/

namespace Server

/-! ## Characters -/

/-- The class `\w` of a regular expression without the `u` flag: `[A-Za-z0-9_]`. -/
def isWordChar (c : Char) : Bool :=
  c.isAlphanum || c == '_'

/-- The class `\s`: the white space and line terminator code points of
ECMAScript.  `String.prototype.trim` strips exactly the same code points. -/
def isJsSpace (c : Char) : Bool :=
  let n := c.toNat
  n == 9 || n == 10 || n == 11 || n == 12 || n == 13 || n == 32 || n == 0xA0 ||
  n == 0x1680 || (0x2000 ≤ n && n ≤ 0x200A) || n == 0x2028 || n == 0x2029 ||
  n == 0x202F || n == 0x205F || n == 0x3000 || n == 0xFEFF

/-- Lower-casing of one code point, as far as the program can observe it.
ASCII capitals go to their small letters; U+212A (KELVIN SIGN) goes to `k` and
U+0130 goes to `i` followed by U+0307, the only code points outside ASCII whose
lower-case form contains an ASCII character.  Any other code point outside
ASCII lower-cases to code points outside ASCII that are not white space; it is
left as it is, because every later step of the program (`\w`, `\s`, `[a-z]`,
comparison with ASCII literals) treats all of those alike. -/
def lowerChar (c : Char) : List Char :=
  if c.toNat = 0x212A then ['k']
  else if c.toNat = 0x130 then ['i', Char.ofNat 0x307]
  else [c.toLower]

/-- `String.prototype.toLowerCase`. -/
def toLowerCase (s : List Char) : List Char :=
  s.flatMap lowerChar

/-- `s || ""` for a value that is a string or absent. -/
def orEmpty (s : Option (List Char)) : List Char :=
  s.getD []

/-- JavaScript truthiness of a value that is a string or absent. -/
def truthy : Option (List Char) → Bool
  | some (_ :: _) => true
  | _ => false

/-! ## Text helpers -/

/-- `.replace(/[^\w\s]/g, " ")`. -/
def replaceNonWord (s : List Char) : List Char :=
  s.map fun c => if isWordChar c || isJsSpace c then c else ' '

/-- The scan of `.replace(/\s+/g, " ")`; `inRun` says that the previous
character belonged to the run of white space being replaced. -/
def collapseAux : Bool → List Char → List Char
  | _, [] => []
  | inRun, c :: cs =>
    if isJsSpace c then
      if inRun then collapseAux true cs else ' ' :: collapseAux true cs
    else c :: collapseAux false cs

/-- `.replace(/\s+/g, " ")`. -/
def collapseSpaces (s : List Char) : List Char :=
  collapseAux false s

/-- `.trim()`. -/
def trim (s : List Char) : List Char :=
  (s.dropWhile isJsSpace).rdropWhile isJsSpace

/-- `normalize(s)`:
`(s || "").toLowerCase().replace(/[^\w\s]/g," ").replace(/\s+/g," ").trim()`. -/
def normalize (s : Option (List Char)) : List Char :=
  trim (collapseSpaces (replaceNonWord (toLowerCase (orEmpty s))))

/-- The pieces of a text cut at every character outside `\w`. -/
def pieces (l : List Char) : List (List Char) :=
  l.splitOnP fun c => !isWordChar c

/-- The maximal runs of `\w` characters of a text, in order: the pieces of the
text cut at every character outside `\w`, without the empty ones. -/
def wordRuns (l : List Char) : List (List Char) :=
  (pieces l).filter fun w => !w.isEmpty

/-- Two texts whose pieces have the same first piece and, after it, the same
non-empty pieces. -/
def SameRuns (a b : List Char) : Prop :=
  ∃ hd ta tb, pieces a = hd :: ta ∧ pieces b = hd :: tb ∧
    ta.filter (fun w => !w.isEmpty) = tb.filter (fun w => !w.isEmpty)

/-- The set `STOPWORDS`. -/
def STOPWORDS : List (List Char) :=
  ["the","is","in","at","which","on","a","an","and","of","for","to","from","by",
   "what","who","when","where","why","how","about","tell","me"].map String.toList

/-- `keywords(text)`:
`normalize(text).split(" ").filter(w => w && !STOPWORDS.has(w))`. -/
def keywords (text : Option (List Char)) : List (List Char) :=
  ((normalize text).splitOn ' ').filter fun w => !w.isEmpty && !STOPWORDS.contains w

/-- `new Set(xs)` as the list of its elements in insertion order: each value is
kept at its first occurrence. -/
def newSet : List (List Char) → List (List Char)
  | [] => []
  | x :: xs => x :: (newSet xs).filter (fun y => y != x)

/-- `s.includes(t)`: `t` occurs in `s` as a contiguous substring. -/
def includes (s t : List Char) : Bool :=
  decide (t <:+: s)

/-- `keywordScore(a, b)`. -/
def keywordScore (a b : Option (List Char)) : ℚ :=
  let A := newSet (keywords a)
  let B := newSet (keywords b)
  if A.length = 0 ∨ B.length = 0 then 0
  else
    let inter := (A.filter fun x => B.contains x).length
    let union := (newSet (A ++ B)).length
    let score : ℚ := (inter : ℚ) / (union : ℚ)
    if includes (normalize a) (normalize b) || includes (normalize b) (normalize a) then
      max score (4 / 5)
    else score

/-! ## Dataset matcher -/

/-- One entry of `data.json`.  The program reads `item.question || ""`, so the
question may be absent. -/
structure QAEntry where
  question : Option (List Char)
  answer : List Char
deriving DecidableEq, Repr

/-- The body of the loop of `findBestAnswer`, on the pair `(best, bestScore)`. -/
def findBestStep (message : List Char) (acc : Option QAEntry × ℚ) (item : QAEntry) :
    Option QAEntry × ℚ :=
  let s := keywordScore (some message) (some (orEmpty item.question))
  if s > acc.2 then (some item, s) else acc

/-- `findBestAnswer(message)` over the loaded dataset `qaData`. -/
def findBestAnswer (qaData : List QAEntry) (message : List Char) : Option (List Char) :=
  match qaData.foldl (findBestStep message) (none, 0) with
  | (some best, bestScore) => if bestScore ≥ 11 / 20 then some best.answer else none
  | (none, _) => none

/-! ## Regular expressions used by the program -/

/-- Whether the character next to a position, if any, is a `\w` character. -/
def isWordAt : Option Char → Bool
  | some c => isWordChar c
  | none => false

/-- The assertion `\b` between the character before a position and the one
after it. -/
def wordBoundary (prev next : Option Char) : Bool :=
  isWordAt prev != isWordAt next

/-- Match the literal `lit` at the start of `s` under the `i` flag; the result
is the matched text and the rest of the input. -/
def matchLit : List Char → List Char → Option (List Char × List Char)
  | [], s => some ([], s)
  | _ :: _, [] => none
  | l :: ls, c :: cs =>
    if c.toLower == l.toLower then
      (matchLit ls cs).map fun r => (c :: r.1, r.2)
    else none

/-- One attempt of `/\b(alt1|alt2|...)\b/i` at a position: `prev` is the
character before it and `s` the input from it on.  The alternatives are tried
in order; the result is the text of the capture group. -/
def matchWordAt (alts : List (List Char)) (prev : Option Char) (s : List Char) :
    Option (List Char) :=
  if wordBoundary prev s.head? then
    alts.findSome? fun p =>
      match matchLit p s with
      | some (m, rest) => if wordBoundary m.getLast? rest.head? then some m else none
      | none => none
  else none

/-- The leftmost match of `/\b(alt1|alt2|...)\b/i`. -/
def searchWord (alts : List (List Char)) : Option Char → List Char → Option (List Char)
  | prev, [] => matchWordAt alts prev []
  | prev, c :: cs =>
    match matchWordAt alts prev (c :: cs) with
    | some m => some m
    | none => searchWord alts (some c) cs

/-- The alternatives of the first group of the pattern of `detectGenericName`. -/
def NAME_PHRASES : List (List Char) :=
  ["do you know", "tell me about", "who is", "what about"].map String.toList

/-- One attempt of
`/\b(do you know|tell me about|who is|what about)\s+([a-z]+)\b/i` at a
position; the result is the second capture group.  `\s+` and `[a-z]+` are
greedy and giving back characters never helps: after a shorter `\s+` the next
character is white space, not a letter, and after a shorter `[a-z]+` the next
character is a letter, so `\b` fails.  Under the `i` flag (without `u`)
`[a-z]` is the ASCII letters of either case. -/
def matchNameAt (prev : Option Char) (s : List Char) : Option (List Char) :=
  if wordBoundary prev s.head? then
    NAME_PHRASES.findSome? fun p =>
      match matchLit p s with
      | some (_, rest) =>
        let ws := rest.takeWhile isJsSpace
        let rest1 := rest.dropWhile isJsSpace
        let name := rest1.takeWhile Char.isAlpha
        let rest2 := rest1.dropWhile Char.isAlpha
        if !ws.isEmpty && !name.isEmpty && wordBoundary name.getLast? rest2.head? then
          some name
        else none
      | none => none
  else none

/-- The leftmost match of the pattern of `detectGenericName`. -/
def searchName : Option Char → List Char → Option (List Char)
  | prev, [] => matchNameAt prev []
  | prev, c :: cs =>
    match matchNameAt prev (c :: cs) with
    | some name => some name
    | none => searchName (some c) cs

/-- The text `lower` has an occurrence of the pattern of `detectGenericName`
that starts after the prefix `pre` and captures `name`: one of the four phrases
stands there with no `\w` character (ASCII letter, digit, underscore) before
it, then white space, then the ASCII letters `name` with no `\w` character
after them. -/
def NameOccurrence (lower pre name : List Char) : Prop :=
  ∃ phrase ws post, lower = pre ++ (phrase ++ (ws ++ (name ++ post))) ∧
    (phrase = "do you know".toList ∨ phrase = "tell me about".toList ∨
      phrase = "who is".toList ∨ phrase = "what about".toList) ∧
    ws ≠ [] ∧ (∀ c ∈ ws, isJsSpace c = true) ∧
    name ≠ [] ∧ (∀ c ∈ name, c.isAlpha = true) ∧
    isWordAt pre.getLast? = false ∧ isWordAt post.head? = false

/-! ## Name dialogue -/

/-- The two values of the `gender` field. -/
inductive Gender where
  | female
  | male
deriving DecidableEq, Repr

/-- The object stored in `lastAskedPerson`. -/
structure Pending where
  name : List Char
  gender : Gender
deriving DecidableEq, Repr

/-- The probe question returned for a gender. -/
def probe : Gender → List Char
  | Gender.female => "Is she from RRSDEC Begusarai?".toList
  | Gender.male => "Is he from RRSDEC Begusarai?".toList

/-- `name.endsWith("a") || name.endsWith("i") ? "female" : "male"`. -/
def genderOf (name : List Char) : Gender :=
  if name.getLast? = some 'a' ∨ name.getLast? = some 'i' then Gender.female else Gender.male

/-- `detectGenericName(message)`: the returned value and the new content of
`lastAskedPerson`. -/
def detectGenericName (lastAskedPerson : Option Pending) (message : List Char) :
    Option (List Char) × Option Pending :=
  let lower := toLowerCase message
  match searchName none lower with
  | some name =>
    let gender := genderOf name
    (some (probe gender), some { name := name, gender := gender })
  | none => (none, lastAskedPerson)

/-- The affirmative tokens of `respondGenericName`. -/
def AFFIRMATIVE : List (List Char) :=
  ["yes", "yaa", "ha", "haan", "yup"].map String.toList

/-- `name.charAt(0).toUpperCase() + name.slice(1)`.  The names held in
`lastAskedPerson` are ASCII letters (they are captured by `[a-z]+`), on which
`toUpperCase` is the ASCII mapping. -/
def capitalize (name : List Char) : List Char :=
  (name.take 1).map Char.toUpper ++ name.drop 1

/-- The text that follows the name in the reply for a girl. -/
def femaleTail : List Char :=
  (" is a really sweet and confident girl from RRSDEC! 🌸 " ++
   "Always active in events and known for her smile that can fix a whole bad day 😄. " ++
   "Fun fact: College ke canteen wale bhi uska naam leke discount de dete hain — bas naam ka jaadu hi aisa hai! 😂").toList

/-- The text that follows the name in the reply for a boy. -/
def maleTail : List Char :=
  (" bhai is a proper RRSDEC legend 😎. " ++
   "Coding me tez, attendance me kam, par style me full marks! 💪 " ++
   "Fun fact: Teachers bhi kehte hain “iska confidence alag level pe hai” — par result ke time silent mode on kar deta hai 😅").toList

/-- The template reply of `respondGenericName`. -/
def nameReply (p : Pending) : List Char :=
  match p.gender with
  | Gender.female => "Aree ".toList ++ capitalize p.name ++ femaleTail
  | Gender.male => capitalize p.name ++ maleTail

/-- `respondGenericName(message)`: the returned value and the new content of
`lastAskedPerson`. -/
def respondGenericName (lastAskedPerson : Option Pending) (message : List Char) :
    Option (List Char) × Option Pending :=
  let m := toLowerCase message
  match lastAskedPerson with
  | none => (none, none)
  | some p =>
    if !AFFIRMATIVE.contains m then (none, some p)
    else (some (nameReply p), none)

/-! ## Web and code fallbacks -/

/-- The alternatives of the pattern of `isCodingQuestion`. -/
def CODING_WORDS : List (List Char) :=
  ["code", "program", "algorithm", "sort", "sorting", "implement", "c program", "c code",
   "cpp", "c++", "java", "python", "javascript", "function", "snippet"].map String.toList

/-- `isCodingQuestion(msg)`. -/
def isCodingQuestion (msg : List Char) : Bool :=
  (searchWord CODING_WORDS none msg).isSome

/-- The alternatives of the language pattern of `searchCodeOnline`. -/
def LANG_WORDS : List (List Char) :=
  ["c", "cpp", "java", "python", "javascript", "js"].map String.toList

/-- `/\b(c|cpp|java|python|javascript|js)\b/i.exec(query)?.[1] || "txt"`. -/
def guessLang (query : List Char) : List Char :=
  match searchWord LANG_WORDS none query with
  | some (c :: cs) => c :: cs
  | _ => "txt".toList

/-- The value `searchCodeOnline` returns for the block `best`. -/
def fenced (query best : List Char) : List Char :=
  "```".toList ++ guessLang query ++ "\n".toList ++ best ++ "\n```".toList

/-- `s.length`: the number of UTF-16 code units of a string.  A code point from
U+10000 on takes two code units, any other takes one. -/
def jsLength (s : List Char) : Nat :=
  (s.map fun c => if 0x10000 ≤ c.toNat then 2 else 1).sum

/-- `blocks.sort((a, b) => b.length - a.length)[0]`: the sort is stable, so
the result is the first block of greatest length. -/
def longestBlock (blocks : List (List Char)) : Option (List Char) :=
  (blocks.insertionSort fun a b => jsLength b ≤ jsLength a).head?

/-- `searchCodeOnline(query)`.  `pages` is the outcome of the requests: `none`
when the search request fails, otherwise one item per accepted result link, in
order, which is `none` when the page request fails and otherwise the trimmed
texts of the `pre` and `code` elements of the page. -/
def searchCodeOnline (pages : Option (List (Option (List (List Char)))))
    (query : List Char) : Option (List Char) :=
  match pages with
  | none => none
  | some links =>
    (links.take 5).findSome? fun page =>
      match page with
      | none => none
      | some texts =>
        let blocks := texts.filter fun t => 20 < jsLength t && 2 < (t.splitOn '\n').length
        match longestBlock blocks with
        | some best => some (fenced query best)
        | none => none

/-- The three providers of `webFallback`. -/
inductive Provider where
  | google
  | duckDuckGo
  | wikipedia
deriving DecidableEq, Repr

/-- The values `googleSearch(query)`, `duckDuckGoSearch(query)` and
`wikipediaSearch(query)` would return in the request at hand. -/
structure WebOutcomes where
  googleSearch : Option (List Char)
  duckDuckGoSearch : Option (List Char)
  wikipediaSearch : Option (List Char)
deriving DecidableEq, Repr

/-- The message `webFallback` returns when no provider has an answer. -/
def notFound (query : List Char) : List Char :=
  "I couldn\x27t find a clear English answer for “".toList ++ query ++ "”.".toList

/-- `webFallback(query)`: the returned value and the providers that were
called, in the order of the calls. -/
def webFallback (o : WebOutcomes) (query : List Char) :
    Option (List Char) × List Provider :=
  let g := o.googleSearch
  if truthy g then (some ("From Google: ".toList ++ orEmpty g), [Provider.google])
  else
    let d := o.duckDuckGoSearch
    if truthy d then
      (some ("From DuckDuckGo: ".toList ++ orEmpty d), [Provider.google, Provider.duckDuckGo])
    else
      let w := o.wikipediaSearch
      if truthy w then
        (some ("From Wikipedia: ".toList ++ orEmpty w),
          [Provider.google, Provider.duckDuckGo, Provider.wikipedia])
      else
        (some (notFound query), [Provider.google, Provider.duckDuckGo, Provider.wikipedia])

/-! ## Chat endpoint -/

/-- What the handler sends: the HTTP status and the `reply` field of the body. -/
structure Response where
  status : Nat
  reply : List Char
deriving DecidableEq, Repr

/-- `res.json({ reply })`, with the default status. -/
def ok (reply : List Char) : Response :=
  { status := 200, reply := reply }

/-- The reply that replaces an answer of the model naming another creator. -/
def CREATOR_REPLY : List Char :=
  "My creator is Abhiranjan Singh — smart, funny, and a bit pagal 😜".toList

/-- The `try` block of the `POST /chat` handler: either the response sent or
the exception thrown, together with the new content of `lastAskedPerson`.

`personalityReply` is the binding of the identifier of that name, which the
handler calls at line 300.  `server.js` contains no declaration, import or
assignment of it, so for the program as written the binding is `none` and the
call throws a `ReferenceError`.  `groq` is the value `askGroq(message)` would
return and `web` the outcomes of the web providers. -/
def chatTry (personalityReply : Option (List Char → Option (List Char)))
    (qaData : List QAEntry) (groq : Option (List Char)) (web : WebOutcomes)
    (lastAskedPerson : Option Pending) (message : Option (List Char)) :
    Except String Response × Option Pending :=
  if !truthy message then
    (Except.ok { status := 400, reply := "No message received.".toList }, lastAskedPerson)
  else
    let msg := orEmpty message
    let (nameCheck, slot1) := detectGenericName lastAskedPerson msg
    if truthy nameCheck then (Except.ok (ok (orEmpty nameCheck)), slot1)
    else
      let (followUp, slot2) := respondGenericName slot1 msg
      if truthy followUp then (Except.ok (ok (orEmpty followUp)), slot2)
      else
        match personalityReply with
        | none => (Except.error "ReferenceError: personalityReply is not defined", slot2)
        | some f =>
          let reply := f msg
          if truthy reply then (Except.ok (ok (orEmpty reply)), slot2)
          else
            let reply := findBestAnswer qaData msg
            if truthy reply then (Except.ok (ok (orEmpty reply)), slot2)
            else
              let reply := groq
              if truthy reply then
                if includes (toLowerCase (orEmpty reply)) "meta".toList &&
                    includes (toLowerCase msg) "who created".toList then
                  (Except.ok (ok CREATOR_REPLY), slot2)
                else (Except.ok (ok (orEmpty reply)), slot2)
              else
                let reply := (webFallback web msg).1
                let reply :=
                  if !truthy reply then some "😕 Sorry, I couldn’t find a clear answer.".toList
                  else reply
                (Except.ok (ok (orEmpty reply)), slot2)

/-- The `POST /chat` handler: the `try` block, with any exception turned into
the 500 response by the `catch` block. -/
def postChat (personalityReply : Option (List Char → Option (List Char)))
    (qaData : List QAEntry) (groq : Option (List Char)) (web : WebOutcomes)
    (lastAskedPerson : Option Pending) (message : Option (List Char)) :
    Response × Option Pending :=
  match chatTry personalityReply qaData groq web lastAskedPerson message with
  | (Except.ok r, slot) => (r, slot)
  | (Except.error _, slot) =>
    ({ status := 500, reply := "Internal server error.".toList }, slot)

/-! ## Facts about characters -/

theorem isUpper_iff (c : Char) : c.isUpper = true ↔ 65 ≤ c.toNat ∧ c.toNat ≤ 90 := by
  simp [Char.isUpper, Char.toNat, UInt32.le_def, BitVec.le_def, UInt32.toNat]

theorem isLower_iff (c : Char) : c.isLower = true ↔ 97 ≤ c.toNat ∧ c.toNat ≤ 122 := by
  simp [Char.isLower, Char.toNat, UInt32.le_def, BitVec.le_def, UInt32.toNat]

theorem isDigit_iff (c : Char) : c.isDigit = true ↔ 48 ≤ c.toNat ∧ c.toNat ≤ 57 := by
  simp [Char.isDigit, Char.toNat, UInt32.le_def, BitVec.le_def, UInt32.toNat]

theorem toNat_ofNat_small (n : Nat) (h : n < 0xd800) : (Char.ofNat n).toNat = n := by
  have hv : n.isValidChar := Or.inl h
  unfold Char.ofNat
  rw [dif_pos hv]
  rfl

theorem toNat_toLower (c : Char) :
    c.toLower.toNat = if 65 ≤ c.toNat ∧ c.toNat ≤ 90 then c.toNat + 32 else c.toNat := by
  by_cases h : 65 ≤ c.toNat ∧ c.toNat ≤ 90
  · have h' : c.toNat ≥ 65 ∧ c.toNat ≤ 90 := h
    rw [if_pos h, Char.toLower, if_pos h']
    exact toNat_ofNat_small _ (by omega)
  · have h' : ¬ (c.toNat ≥ 65 ∧ c.toNat ≤ 90) := h
    rw [if_neg h, Char.toLower, if_neg h']

theorem isWordChar_iff (c : Char) : isWordChar c = true ↔
    (48 ≤ c.toNat ∧ c.toNat ≤ 57) ∨ (65 ≤ c.toNat ∧ c.toNat ≤ 90) ∨
    (97 ≤ c.toNat ∧ c.toNat ≤ 122) ∨ c.toNat = 95 := by
  have h95 : c = '_' ↔ c.toNat = 95 := by
    constructor
    · rintro rfl; rfl
    · intro h
      have := Char.ofNat_toNat c
      rw [h] at this
      exact this.symm
  simp only [isWordChar, Char.isAlphanum, Char.isAlpha, Bool.or_eq_true, isUpper_iff, isLower_iff,
    isDigit_iff, beq_iff_eq, h95]
  tauto

theorem isJsSpace_iff (c : Char) : isJsSpace c = true ↔
    c.toNat = 9 ∨ c.toNat = 10 ∨ c.toNat = 11 ∨ c.toNat = 12 ∨ c.toNat = 13 ∨ c.toNat = 32 ∨
    c.toNat = 0xA0 ∨ c.toNat = 0x1680 ∨ (0x2000 ≤ c.toNat ∧ c.toNat ≤ 0x200A) ∨
    c.toNat = 0x2028 ∨ c.toNat = 0x2029 ∨ c.toNat = 0x202F ∨ c.toNat = 0x205F ∨
    c.toNat = 0x3000 ∨ c.toNat = 0xFEFF := by
  simp [isJsSpace, or_assoc]

theorem not_space_of_word {c : Char} (h : isWordChar c = true) : isJsSpace c = false := by
  rw [isWordChar_iff] at h
  rw [Bool.eq_false_iff, Ne, isJsSpace_iff]
  omega

theorem eq_underscore_iff (c : Char) : c = '_' ↔ c.toNat = 95 := by
  constructor
  · rintro rfl; rfl
  · intro h
    have := Char.ofNat_toNat c
    rw [h] at this
    exact this.symm

theorem eq_space_iff (c : Char) : c = ' ' ↔ c.toNat = 32 := by
  constructor
  · rintro rfl; rfl
  · intro h
    have := Char.ofNat_toNat c
    rw [h] at this
    exact this.symm

theorem isJsSpace_space : isJsSpace ' ' = true := by decide

/-! ## Facts about `normalize` -/

theorem not_isUpper_of_mem_toLowerCase {s : List Char} {c : Char} (h : c ∈ toLowerCase s) :
    c.isUpper = false := by
  obtain ⟨a, -, hc⟩ := List.mem_flatMap.mp h
  rw [Bool.eq_false_iff, Ne, isUpper_iff]
  unfold lowerChar at hc
  split at hc
  · rw [List.mem_singleton] at hc; subst hc; decide
  · split at hc
    · simp only [List.mem_cons, List.mem_singleton, List.not_mem_nil, or_false] at hc
      rcases hc with rfl | rfl <;> decide
    · rw [List.mem_singleton] at hc
      subst hc
      rw [toNat_toLower]
      split <;> omega

theorem mem_replaceNonWord {s : List Char} {c : Char} (h : c ∈ replaceNonWord s) :
    c = ' ' ∨ (c ∈ s ∧ (isWordChar c = true ∨ isJsSpace c = true)) := by
  obtain ⟨a, ha, rfl⟩ := List.mem_map.mp h
  by_cases hw : (isWordChar a || isJsSpace a) = true
  · rw [if_pos hw]
    exact Or.inr ⟨ha, by simpa using hw⟩
  · rw [if_neg hw]
    exact Or.inl rfl

theorem mem_collapseAux {s : List Char} {c : Char} (b : Bool) (h : c ∈ collapseAux b s) :
    c = ' ' ∨ (c ∈ s ∧ isJsSpace c = false) := by
  induction s generalizing b with
  | nil => simp [collapseAux] at h
  | cons a l ih =>
    unfold collapseAux at h
    by_cases ha : isJsSpace a = true
    · rw [if_pos ha] at h
      cases b with
      | true =>
        rw [if_pos rfl] at h
        rcases ih true h with h1 | ⟨h1, h2⟩
        · exact Or.inl h1
        · exact Or.inr ⟨List.mem_cons_of_mem _ h1, h2⟩
      | false =>
        rw [if_neg (by decide)] at h
        rcases List.mem_cons.mp h with h1 | h1
        · exact Or.inl h1
        · rcases ih true h1 with h2 | ⟨h2, h3⟩
          · exact Or.inl h2
          · exact Or.inr ⟨List.mem_cons_of_mem _ h2, h3⟩
    · rw [if_neg ha] at h
      rcases List.mem_cons.mp h with h1 | h1
      · subst h1
        exact Or.inr ⟨List.mem_cons_self _ _, by simpa using ha⟩
      · rcases ih false h1 with h2 | ⟨h2, h3⟩
        · exact Or.inl h2
        · exact Or.inr ⟨List.mem_cons_of_mem _ h2, h3⟩

theorem trim_sub (s : List Char) : trim s <:+: s := by
  have h1 : trim s <+: s.dropWhile isJsSpace := List.rdropWhile_prefix isJsSpace _
  have h2 : s.dropWhile isJsSpace <:+ s := List.dropWhile_suffix isJsSpace
  exact h1.isInfix.trans h2.isInfix

theorem mem_of_mem_trim {s : List Char} {c : Char} (h : c ∈ trim s) : c ∈ s :=
  (trim_sub s).subset h

/-- After the second `replace` no two white-space characters are adjacent, and
inside a run nothing is emitted before the next non-space character. -/
theorem chain_collapseAux (b : Bool) (s : List Char) :
    List.Chain' (fun x y => ¬ (isJsSpace x = true ∧ isJsSpace y = true)) (collapseAux b s) ∧
    (b = true → ∀ x, (collapseAux b s).head? = some x → isJsSpace x = false) := by
  induction s generalizing b with
  | nil => simp [collapseAux]
  | cons a l ih =>
    unfold collapseAux
    by_cases ha : isJsSpace a = true
    · rw [if_pos ha]
      cases b with
      | true =>
        rw [if_pos rfl]
        exact ih true
      | false =>
        rw [if_neg (by decide)]
        refine ⟨?_, by intro h; cases h⟩
        rw [List.chain'_cons']
        refine ⟨?_, (ih true).1⟩
        intro y hy
        have := (ih true).2 rfl y (by simpa using hy)
        simp [this]
    · rw [if_neg ha]
      refine ⟨?_, ?_⟩
      · rw [List.chain'_cons']
        refine ⟨?_, (ih false).1⟩
        intro y _
        simp [ha]
      · intro _ x hx
        simp only [List.head?_cons, Option.some.injEq] at hx
        subst hx
        simpa using ha

theorem head?_trim (s : List Char) (x : Char) (h : (trim s).head? = some x) :
    isJsSpace x = false := by
  have hne : s.dropWhile isJsSpace ≠ [] := by
    intro h0
    simp [trim, h0, List.rdropWhile] at h
  obtain ⟨t, ht⟩ := List.rdropWhile_prefix isJsSpace (s.dropWhile isJsSpace)
  have hhead : (s.dropWhile isJsSpace).head? = some x := by
    rw [← ht]
    cases hq : List.rdropWhile isJsSpace (s.dropWhile isJsSpace) with
    | nil => simp [trim, hq] at h
    | cons y ys =>
      simp only [trim, hq, List.head?_cons, Option.some.injEq] at h
      simp [h]
  have := List.head_dropWhile_not isJsSpace s hne
  rw [List.head?_eq_head hne, Option.some.injEq] at hhead
  rw [hhead] at this
  simpa using this

theorem getLast?_trim (s : List Char) (x : Char) (h : (trim s).getLast? = some x) :
    isJsSpace x = false := by
  have hne : trim s ≠ [] := by
    intro h0
    simp [h0] at h
  have := List.rdropWhile_last_not isJsSpace (s.dropWhile isJsSpace) hne
  rw [List.getLast?_eq_getLast _ hne, Option.some.injEq] at h
  unfold trim at h
  rw [h] at this
  simpa using this

theorem filter_dropWhile_not (p : Char → Bool) (l : List Char) :
    (l.dropWhile p).filter (fun c => !p c) = l.filter (fun c => !p c) := by
  induction l with
  | nil => rfl
  | cons a l ih =>
    by_cases ha : p a = true
    · simp [List.dropWhile_cons, ha, ih]
    · simp [List.dropWhile_cons, ha]

theorem filter_rdropWhile_not (p : Char → Bool) (l : List Char) :
    (l.rdropWhile p).filter (fun c => !p c) = l.filter (fun c => !p c) := by
  unfold List.rdropWhile
  rw [List.filter_reverse, filter_dropWhile_not, ← List.filter_reverse, List.reverse_reverse]

theorem filter_trim (l : List Char) :
    (trim l).filter (fun c => !isJsSpace c) = l.filter (fun c => !isJsSpace c) := by
  unfold trim
  rw [filter_rdropWhile_not, filter_dropWhile_not]

theorem filter_collapseAux (b : Bool) (l : List Char) :
    (collapseAux b l).filter (fun c => !isJsSpace c) = l.filter (fun c => !isJsSpace c) := by
  induction l generalizing b with
  | nil => rfl
  | cons a l ih =>
    unfold collapseAux
    by_cases ha : isJsSpace a = true
    · cases b <;> simp [ha, ih, isJsSpace_space]
    · simp [ha, ih]

theorem filter_replaceNonWord (l : List Char) :
    (replaceNonWord l).filter (fun c => !isJsSpace c) = l.filter isWordChar := by
  induction l with
  | nil => rfl
  | cons a l ih =>
    have ih' : List.filter (fun c => !isJsSpace c) (replaceNonWord l) = l.filter isWordChar := ih
    by_cases hw : isWordChar a = true
    · have hs := not_space_of_word hw
      simp [replaceNonWord, hw, hs] at ih' ⊢
      exact ih'
    · by_cases hs : isJsSpace a = true
      · simp [replaceNonWord, hw, hs] at ih' ⊢
        exact ih'
      · simp [replaceNonWord, hw, hs, isJsSpace_space] at ih' ⊢
        exact ih'

/-- Every character of `normalize s` is a space or a `\w` character that is
not an ASCII capital. -/
theorem mem_normalize {s : Option (List Char)} {c : Char} (h : c ∈ normalize s) :
    c = ' ' ∨ (isWordChar c = true ∧ c.isUpper = false) := by
  rcases mem_collapseAux false (mem_of_mem_trim h) with h1 | ⟨h1, h2⟩
  · exact Or.inl h1
  · rcases mem_replaceNonWord h1 with h3 | ⟨h3, h4⟩
    · exact Or.inl h3
    · rcases h4 with h4 | h4
      · exact Or.inr ⟨h4, not_isUpper_of_mem_toLowerCase h3⟩
      · rw [h2] at h4; cases h4

/-! ## Facts about the runs of `\w` characters -/

theorem pieces_nil : pieces [] = [[]] := rfl

theorem pieces_cons_sep {x : Char} (xs : List Char) (h : isWordChar x = false) :
    pieces (x :: xs) = [] :: pieces xs := by
  unfold pieces
  rw [List.splitOnP_cons]
  simp [h]

theorem pieces_cons_word {x : Char} {xs hd : List Char} {tl : List (List Char)}
    (h : isWordChar x = true) (hp : pieces xs = hd :: tl) :
    pieces (x :: xs) = (x :: hd) :: tl := by
  unfold pieces at hp ⊢
  rw [List.splitOnP_cons, hp]
  simp [h]

theorem pieces_exists (l : List Char) : ∃ hd tl, pieces l = hd :: tl := by
  cases h : pieces l with
  | nil => exact absurd h (List.splitOnP_ne_nil _ l)
  | cons hd tl => exact ⟨hd, tl, rfl⟩

theorem wordRuns_cons_sep {x : Char} (xs : List Char) (h : isWordChar x = false) :
    wordRuns (x :: xs) = wordRuns xs := by
  unfold wordRuns
  rw [pieces_cons_sep xs h]
  rfl

theorem isWordChar_false_of_space {x : Char} (h : isJsSpace x = true) :
    isWordChar x = false := by
  rw [Bool.eq_false_iff]
  intro hw
  rw [not_space_of_word hw] at h
  cases h

theorem sameRuns_refl (a : List Char) : SameRuns a a := by
  obtain ⟨hd, tl, h⟩ := pieces_exists a
  exact ⟨hd, tl, tl, h, h, rfl⟩

theorem sameRuns_wordRuns_eq {a b : List Char} (h : SameRuns a b) : wordRuns a = wordRuns b := by
  obtain ⟨hd, ta, tb, ha, hb, hf⟩ := h
  unfold wordRuns
  rw [ha, hb, List.filter_cons, List.filter_cons, hf]

theorem sameRuns_cons (x : Char) {a b : List Char} (h : SameRuns a b) :
    SameRuns (x :: a) (x :: b) := by
  obtain ⟨hd, ta, tb, ha, hb, hf⟩ := h
  by_cases hw : isWordChar x = true
  · exact ⟨x :: hd, ta, tb, pieces_cons_word hw ha, pieces_cons_word hw hb, hf⟩
  · have hw' : isWordChar x = false := by simpa using hw
    refine ⟨[], hd :: ta, hd :: tb, ?_, ?_, ?_⟩
    · rw [pieces_cons_sep a hw', ha]
    · rw [pieces_cons_sep b hw', hb]
    · rw [List.filter_cons, List.filter_cons, hf]

theorem pieces_replaceNonWord (l : List Char) : pieces (replaceNonWord l) = pieces l := by
  induction l with
  | nil => rfl
  | cons x xs ih =>
    have hcons : replaceNonWord (x :: xs) =
        (if (isWordChar x || isJsSpace x) = true then x else ' ') :: replaceNonWord xs := rfl
    rw [hcons]
    obtain ⟨hd, tl, hp⟩ := pieces_exists xs
    by_cases hw : isWordChar x = true
    · have hx : (if (isWordChar x || isJsSpace x) = true then x else ' ') = x := by simp [hw]
      rw [hx, pieces_cons_word hw (ih.trans hp), pieces_cons_word hw hp]
    · have hw' : isWordChar x = false := by simpa using hw
      have hx : isWordChar (if (isWordChar x || isJsSpace x) = true then x else ' ') = false := by
        by_cases hs : isJsSpace x = true
        · simp [hs, hw']
        · simp only [hw', hs, Bool.or_self, Bool.false_eq_true, if_false]
          decide
      rw [pieces_cons_sep _ hx, pieces_cons_sep _ hw', ih]

theorem runs_collapseAux (t : List Char) :
    SameRuns (collapseAux false t) t ∧ wordRuns (collapseAux true t) = wordRuns t := by
  induction t with
  | nil => exact ⟨sameRuns_refl _, rfl⟩
  | cons x xs ih =>
    by_cases hs : isJsSpace x = true
    · have hw := isWordChar_false_of_space hs
      have e1 : collapseAux false (x :: xs) = ' ' :: collapseAux true xs := by
        simp [collapseAux, hs]
      have e2 : collapseAux true (x :: xs) = collapseAux true xs := by
        simp [collapseAux, hs]
      rw [e1, e2]
      refine ⟨?_, ?_⟩
      · refine ⟨[], pieces (collapseAux true xs), pieces xs,
          pieces_cons_sep _ (by decide), pieces_cons_sep _ hw, ih.2⟩
      · rw [wordRuns_cons_sep xs hw]
        exact ih.2
    · have e1 : ∀ b, collapseAux b (x :: xs) = x :: collapseAux false xs := by
        intro b
        simp [collapseAux, hs]
      rw [e1, e1]
      exact ⟨sameRuns_cons x ih.1, sameRuns_wordRuns_eq (sameRuns_cons x ih.1)⟩

theorem wordRuns_dropWhile (t : List Char) :
    wordRuns (t.dropWhile isJsSpace) = wordRuns t := by
  induction t with
  | nil => rfl
  | cons x xs ih =>
    by_cases hs : isJsSpace x = true
    · rw [List.dropWhile_cons_of_pos hs, ih, wordRuns_cons_sep xs (isWordChar_false_of_space hs)]
    · rw [List.dropWhile_cons_of_neg hs]

theorem pieces_all_sep (v : List Char) (hv : ∀ c ∈ v, isWordChar c = false) :
    ∃ tl, pieces v = [] :: tl ∧ tl.filter (fun w => !w.isEmpty) = [] := by
  induction v with
  | nil => exact ⟨[], rfl, rfl⟩
  | cons x xs ih =>
    obtain ⟨tl, h1, h2⟩ := ih fun c hc => hv c (List.mem_cons_of_mem _ hc)
    refine ⟨[] :: tl, ?_, ?_⟩
    · rw [pieces_cons_sep xs (hv x (List.mem_cons_self _ _)), h1]
    · rw [List.filter_cons]
      simpa using h2

theorem sameRuns_append_sep (u v : List Char) (hv : ∀ c ∈ v, isWordChar c = false) :
    SameRuns (u ++ v) u := by
  induction u with
  | nil =>
    obtain ⟨tl, h1, h2⟩ := pieces_all_sep v hv
    exact ⟨[], tl, [], h1, rfl, h2⟩
  | cons x xs ih => exact sameRuns_cons x ih

theorem rdropWhile_append (p : Char → Bool) (t : List Char) :
    ∃ v, t = t.rdropWhile p ++ v ∧ ∀ c ∈ v, p c = true := by
  refine ⟨(t.reverse.takeWhile p).reverse, ?_, ?_⟩
  · unfold List.rdropWhile
    rw [← List.reverse_append, List.takeWhile_append_dropWhile, List.reverse_reverse]
  · intro c hc
    exact List.mem_takeWhile_imp (List.mem_reverse.mp hc)

theorem wordRuns_rdropWhile (t : List Char) :
    wordRuns (t.rdropWhile isJsSpace) = wordRuns t := by
  obtain ⟨v, h1, h2⟩ := rdropWhile_append isJsSpace t
  have := sameRuns_wordRuns_eq (sameRuns_append_sep (t.rdropWhile isJsSpace) v
    fun c hc => isWordChar_false_of_space (h2 c hc))
  rw [← h1] at this
  exact this.symm

theorem wordRuns_normalize (s : Option (List Char)) :
    wordRuns (normalize s) = wordRuns (toLowerCase (orEmpty s)) := by
  unfold normalize trim collapseSpaces
  rw [wordRuns_rdropWhile, wordRuns_dropWhile, sameRuns_wordRuns_eq (runs_collapseAux _).1]
  unfold wordRuns
  rw [pieces_replaceNonWord]

theorem intercalate_cons_cons (sep a b : List Char) (t : List (List Char)) :
    sep.intercalate (a :: b :: t) = a ++ sep ++ sep.intercalate (b :: t) := by
  simp [List.intercalate, List.intersperse]

theorem intercalate_cons_head (sep hd : List Char) (x : Char) (t : List (List Char)) :
    sep.intercalate ((x :: hd) :: t) = x :: sep.intercalate (hd :: t) := by
  cases t with
  | nil => simp [List.intercalate, List.intersperse]
  | cons b t => rw [intercalate_cons_cons, intercalate_cons_cons]; rfl

/-- A text whose only characters outside `\w` are spaces is its pieces joined
by single spaces. -/
theorem intercalate_pieces (o : List Char) (ho : ∀ c ∈ o, c = ' ' ∨ isWordChar c = true) :
    [' '].intercalate (pieces o) = o := by
  induction o with
  | nil => rfl
  | cons x xs ih =>
    have ih' := ih fun c hc => ho c (List.mem_cons_of_mem _ hc)
    obtain ⟨hd, tl, hp⟩ := pieces_exists xs
    by_cases hw : isWordChar x = true
    · rw [pieces_cons_word hw hp, intercalate_cons_head, ← hp, ih']
    · have hx : x = ' ' := by
        rcases ho x (List.mem_cons_self _ _) with h | h
        · exact h
        · exact absurd h hw
      have hw' : isWordChar x = false := by simpa using hw
      rw [pieces_cons_sep xs hw', hp, intercalate_cons_cons, ← hp, ih', hx]
      rfl

/-- A non-empty text without a leading, a trailing or a doubled space has no
empty piece. -/
theorem pieces_ne_nil_of_shape : ∀ o : List Char,
    (∀ c ∈ o, c = ' ' ∨ isWordChar c = true) →
    List.Chain' (fun x y => ¬ (x = ' ' ∧ y = ' ')) o →
    o.head? ≠ some ' ' → o.getLast? ≠ some ' ' → o ≠ [] →
    ∀ w ∈ pieces o, w ≠ []
  | [], _, _, _, _, hne => absurd rfl hne
  | [x], ho, _, hh, _, _ => by
    have hw : isWordChar x = true := by
      rcases ho x (List.mem_cons_self _ _) with h | h
      · exact absurd (by rw [h]; rfl) hh
      · exact h
    rw [pieces_cons_word hw pieces_nil]
    intro w hw'
    rw [List.mem_singleton] at hw'
    rw [hw']
    exact List.cons_ne_nil _ _
  | x :: y :: ys, ho, hc, hh, hl, _ => by
    have hw : isWordChar x = true := by
      rcases ho x (List.mem_cons_self _ _) with h | h
      · exact absurd (by rw [h]; rfl) hh
      · exact h
    have ho' : ∀ c ∈ y :: ys, c = ' ' ∨ isWordChar c = true :=
      fun c hc => ho c (List.mem_cons_of_mem _ hc)
    have hc' : List.Chain' (fun x y => ¬ (x = ' ' ∧ y = ' ')) (y :: ys) := hc.tail
    have hl' : (y :: ys).getLast? ≠ some ' ' := by
      rw [List.getLast?_cons_cons] at hl
      exact hl
    by_cases hy : isWordChar y = true
    · have hhy : (y :: ys).head? ≠ some ' ' := by
        intro h
        simp only [List.head?_cons, Option.some.injEq] at h
        rw [h] at hy
        revert hy
        decide
      have ih := pieces_ne_nil_of_shape (y :: ys) ho' hc' hhy hl' (List.cons_ne_nil _ _)
      obtain ⟨hd, tl, hp⟩ := pieces_exists (y :: ys)
      rw [pieces_cons_word hw hp]
      intro w hmem
      rcases List.mem_cons.mp hmem with h | h
      · rw [h]; exact List.cons_ne_nil _ _
      · exact ih w (by rw [hp]; exact List.mem_cons_of_mem _ h)
    · have hy' : isWordChar y = false := by simpa using hy
      have hysp : y = ' ' := by
        rcases ho' y (List.mem_cons_self _ _) with h | h
        · exact h
        · exact absurd h hy
      have hys : ys ≠ [] := by
        rintro rfl
        apply hl'
        rw [hysp]
        rfl
      have hhs : ys.head? ≠ some ' ' := by
        intro h
        cases ys with
        | nil => cases h
        | cons z zs =>
          simp only [List.head?_cons, Option.some.injEq] at h
          have := (List.chain'_cons.mp hc').1
          exact this ⟨hysp, h⟩
      have hls : ys.getLast? ≠ some ' ' := by
        cases ys with
        | nil => exact absurd rfl hys
        | cons z zs =>
          rw [List.getLast?_cons_cons] at hl'
          exact hl'
      have ih := pieces_ne_nil_of_shape ys (fun c hc => ho' c (List.mem_cons_of_mem _ hc))
        hc'.tail hhs hls hys
      rw [pieces_cons_word hw (pieces_cons_sep ys hy')]
      intro w hmem
      rcases List.mem_cons.mp hmem with h | h
      · rw [h]; exact List.cons_ne_nil _ _
      · exact ih w h

theorem chain_normalize (s : Option (List Char)) :
    List.Chain' (fun x y => ¬ (x = ' ' ∧ y = ' ')) (normalize s) := by
  have h0 := (chain_collapseAux false (replaceNonWord (toLowerCase (orEmpty s)))).1
  have h := List.Chain'.infix h0 (trim_sub _)
  refine List.Chain'.imp ?_ h
  rintro x y hxy ⟨rfl, rfl⟩
  exact hxy ⟨isJsSpace_space, isJsSpace_space⟩

theorem head?_normalize (s : Option (List Char)) : (normalize s).head? ≠ some ' ' := by
  intro h
  have := head?_trim _ _ h
  rw [isJsSpace_space] at this
  cases this

theorem getLast?_normalize (s : Option (List Char)) : (normalize s).getLast? ≠ some ' ' := by
  intro h
  have := getLast?_trim _ _ h
  rw [isJsSpace_space] at this
  cases this

/-- `normalize s` is the runs of `\w` characters of the lower-cased input, in
order, joined by single spaces. -/
theorem normalize_eq_runs (s : Option (List Char)) :
    normalize s = [' '].intercalate (wordRuns (toLowerCase (orEmpty s))) := by
  rw [← wordRuns_normalize]
  have ho : ∀ c ∈ normalize s, c = ' ' ∨ isWordChar c = true := by
    intro c hc
    rcases mem_normalize hc with h | h
    · exact Or.inl h
    · exact Or.inr h.1
  by_cases hne : normalize s = []
  · rw [hne]
    rfl
  · have hall := pieces_ne_nil_of_shape (normalize s) ho (chain_normalize s)
      (head?_normalize s) (getLast?_normalize s) hne
    have hruns : wordRuns (normalize s) = pieces (normalize s) := by
      unfold wordRuns
      rw [List.filter_eq_self]
      intro w hw
      have := hall w hw
      cases w with
      | nil => exact absurd rfl this
      | cons c cs => rfl
    rw [hruns, intercalate_pieces _ ho]

/-! ## Facts about `newSet` and `keywordScore` -/

theorem mem_newSet {l : List (List Char)} {x : List Char} : x ∈ newSet l ↔ x ∈ l := by
  induction l with
  | nil => simp [newSet]
  | cons a l ih =>
    by_cases hx : x = a
    · simp [newSet, hx]
    · simp [newSet, hx, List.mem_filter, ih]

theorem nodup_newSet (l : List (List Char)) : (newSet l).Nodup := by
  induction l with
  | nil => simp [newSet]
  | cons a l ih =>
    simp only [newSet, List.nodup_cons]
    exact ⟨by simp [List.mem_filter], ih.filter _⟩

theorem toFinset_newSet (l : List (List Char)) : (newSet l).toFinset = l.toFinset := by
  ext x
  simp [mem_newSet]

theorem length_newSet (l : List (List Char)) : (newSet l).length = l.toFinset.card := by
  rw [← toFinset_newSet, List.toFinset_card_of_nodup (nodup_newSet l)]

theorem newSet_eq_nil {l : List (List Char)} : newSet l = [] ↔ l = [] := by
  cases l <;> simp [newSet]

theorem length_inter (A B : List (List Char)) (hA : A.Nodup) :
    (A.filter fun x => B.contains x).length = (A.toFinset ∩ B.toFinset).card := by
  rw [← List.toFinset_card_of_nodup (hA.filter _)]
  congr 1
  ext x
  simp [List.mem_filter]

/-- The value of `keywordScore` in terms of the finite sets of keywords. -/
theorem keywordScore_eq (a b : Option (List Char)) :
    keywordScore a b =
      if keywords a = [] ∨ keywords b = [] then 0
      else if normalize b <:+: normalize a ∨ normalize a <:+: normalize b then
        max ((((keywords a).toFinset ∩ (keywords b).toFinset).card : ℚ) /
          (((keywords a).toFinset ∪ (keywords b).toFinset).card : ℚ)) (4 / 5)
      else (((keywords a).toFinset ∩ (keywords b).toFinset).card : ℚ) /
          (((keywords a).toFinset ∪ (keywords b).toFinset).card : ℚ) := by
  unfold keywordScore
  simp only [length_inter _ _ (nodup_newSet _), length_newSet, toFinset_newSet,
    List.toFinset_append, includes, Bool.or_eq_true, decide_eq_true_eq, Finset.card_eq_zero,
    List.toFinset_eq_empty_iff]

theorem keywordScore_nonneg (a b : Option (List Char)) : 0 ≤ keywordScore a b := by
  rw [keywordScore_eq]
  split
  · exact le_refl 0
  · split
    · exact le_max_of_le_left (div_nonneg (Nat.cast_nonneg _) (Nat.cast_nonneg _))
    · exact div_nonneg (Nat.cast_nonneg _) (Nat.cast_nonneg _)

/-! ## Facts about the loop of `findBestAnswer` -/

theorem find?_congr_mem {α : Type} {p q : α → Bool} {l : List α}
    (h : ∀ x ∈ l, p x = q x) : l.find? p = l.find? q := by
  induction l with
  | nil => rfl
  | cons a l ih =>
    have ha := h a (List.mem_cons_self _ _)
    have hl := ih fun x hx => h x (List.mem_cons_of_mem _ hx)
    simp only [List.find?_cons, ha, hl]

/-- A non-empty list has an item of greatest value. -/
theorem exists_greatest {α : Type} (f : α → ℚ) (l : List α) (h : l ≠ []) :
    ∃ e ∈ l, ∀ x ∈ l, f x ≤ f e := by
  induction l with
  | nil => exact absurd rfl h
  | cons a l ih =>
    by_cases hl : l = []
    · subst hl
      exact ⟨a, List.mem_cons_self _ _, by simp⟩
    · obtain ⟨e, he, hmax⟩ := ih hl
      by_cases hae : f e ≤ f a
      · refine ⟨a, List.mem_cons_self _ _, ?_⟩
        intro x hx
        rcases List.mem_cons.mp hx with rfl | hx
        · exact le_refl _
        · exact le_trans (hmax x hx) hae
      · refine ⟨e, List.mem_cons_of_mem _ he, ?_⟩
        intro x hx
        rcases List.mem_cons.mp hx with rfl | hx
        · exact le_of_lt (not_le.mp hae)
        · exact hmax x hx

/-- The loop that keeps the first item of strictly greatest value: started from
`(b, v)` it ends with the first item of `l` whose value exceeds `v` and is
greatest in `l`, or with `(b, v)` when no value exceeds `v`. -/
theorem foldl_keep_best {α : Type} (f : α → ℚ) (l : List α) (b : Option α) (v : ℚ) :
    l.foldl (fun acc item => if f item > acc.2 then (some item, f item) else acc) (b, v) =
      match l.find? (fun e => decide (v < f e ∧ ∀ x ∈ l, f x ≤ f e)) with
      | some e => (some e, f e)
      | none => (b, v) := by
  induction l generalizing b v with
  | nil => rfl
  | cons a l ih =>
    rw [List.foldl_cons]
    by_cases ha : f a > v
    · simp only [ha, if_true]
      rw [ih]
      by_cases hmax : ∀ x ∈ l, f x ≤ f a
      · have h1 : l.find? (fun e => decide (f a < f e ∧ ∀ x ∈ l, f x ≤ f e)) = none := by
          rw [List.find?_eq_none]
          intro x hx
          have := hmax x hx
          simp only [decide_eq_true_eq, not_and]
          intro hlt
          exact absurd hlt (not_lt.mpr this)
        have h2 : (a :: l).find? (fun e => decide (v < f e ∧ ∀ x ∈ a :: l, f x ≤ f e)) =
            some a := by
          rw [List.find?_cons]
          have : decide (v < f a ∧ ∀ x ∈ a :: l, f x ≤ f a) = true := by
            rw [decide_eq_true_eq]
            refine ⟨ha, ?_⟩
            intro x hx
            rcases List.mem_cons.mp hx with rfl | hx
            · exact le_refl _
            · exact hmax x hx
          rw [this]
        rw [h1, h2]
      · push_neg at hmax
        obtain ⟨e0, he0, hlt0⟩ := hmax
        have h2 : (a :: l).find? (fun e => decide (v < f e ∧ ∀ x ∈ a :: l, f x ≤ f e)) =
            l.find? (fun e => decide (f a < f e ∧ ∀ x ∈ l, f x ≤ f e)) := by
          rw [List.find?_cons]
          have : decide (v < f a ∧ ∀ x ∈ a :: l, f x ≤ f a) = false := by
            rw [decide_eq_false_iff_not]
            rintro ⟨-, h⟩
            exact absurd (h e0 (List.mem_cons_of_mem _ he0)) (not_le.mpr hlt0)
          rw [this]
          apply find?_congr_mem
          intro e _
          rw [decide_eq_decide]
          constructor
          · rintro ⟨-, h⟩
            refine ⟨lt_of_lt_of_le hlt0 (h e0 (List.mem_cons_of_mem _ he0)), ?_⟩
            intro x hx
            exact h x (List.mem_cons_of_mem _ hx)
          · rintro ⟨h1, h⟩
            refine ⟨lt_trans ha h1, ?_⟩
            intro x hx
            rcases List.mem_cons.mp hx with rfl | hx
            · exact le_of_lt h1
            · exact h x hx
        rw [h2]
        obtain ⟨e, he, hmax⟩ := exists_greatest f l (List.ne_nil_of_mem he0)
        have hsome : (l.find? (fun e => decide (f a < f e ∧ ∀ x ∈ l, f x ≤ f e))).isSome := by
          rw [List.find?_isSome]
          exact ⟨e, he, by
            rw [decide_eq_true_eq]
            exact ⟨lt_of_lt_of_le hlt0 (hmax e0 he0), hmax⟩⟩
        obtain ⟨e1, he1⟩ := Option.isSome_iff_exists.mp hsome
        rw [he1]
    · simp only [ha, if_false]
      rw [ih]
      have h2 : (a :: l).find? (fun e => decide (v < f e ∧ ∀ x ∈ a :: l, f x ≤ f e)) =
          l.find? (fun e => decide (v < f e ∧ ∀ x ∈ l, f x ≤ f e)) := by
        rw [List.find?_cons]
        have : decide (v < f a ∧ ∀ x ∈ a :: l, f x ≤ f a) = false := by
          rw [decide_eq_false_iff_not]
          rintro ⟨h, -⟩
          exact ha h
        rw [this]
        apply find?_congr_mem
        intro e _
        rw [decide_eq_decide]
        constructor
        · rintro ⟨h1, h⟩
          exact ⟨h1, fun x hx => h x (List.mem_cons_of_mem _ hx)⟩
        · rintro ⟨h1, h⟩
          refine ⟨h1, ?_⟩
          intro x hx
          rcases List.mem_cons.mp hx with rfl | hx
          · exact le_trans (not_lt.mp ha) (le_of_lt h1)
          · exact h x hx
      rw [h2]

/-! ## Facts about the pattern of `detectGenericName` -/

theorem toLower_eq_self {c : Char} (h : c.isUpper = false) : c.toLower = c := by
  rw [Bool.eq_false_iff, Ne, isUpper_iff] at h
  have h' : ¬ (c.toNat ≥ 65 ∧ c.toNat ≤ 90) := h
  rw [Char.toLower, if_neg h']

theorem isWordChar_of_isAlpha {c : Char} (h : c.isAlpha = true) : isWordChar c = true := by
  simp [isWordChar, Char.isAlphanum, h]

theorem matchLit_append (p rest : List Char) : matchLit p (p ++ rest) = some (p, rest) := by
  induction p with
  | nil => rfl
  | cons a p ih => simp [matchLit, ih]

theorem matchLit_some {p s m rest : List Char} (h : matchLit p s = some (m, rest)) :
    s = m ++ rest ∧ m.map Char.toLower = p.map Char.toLower := by
  induction p generalizing s m rest with
  | nil =>
    simp only [matchLit, Option.some.injEq, Prod.mk.injEq] at h
    obtain ⟨rfl, rfl⟩ := h
    exact ⟨rfl, rfl⟩
  | cons a p ih =>
    cases s with
    | nil => simp [matchLit] at h
    | cons c cs =>
      unfold matchLit at h
      by_cases hc : (c.toLower == a.toLower) = true
      · rw [if_pos hc] at h
        cases hm : matchLit p cs with
        | none => simp [hm] at h
        | some r =>
          obtain ⟨m1, r1⟩ := r
          simp only [hm, Option.map_some', Option.some.injEq, Prod.mk.injEq] at h
          obtain ⟨rfl, rfl⟩ := h
          obtain ⟨h1, h2⟩ := ih hm
          exact ⟨by rw [h1]; rfl, by simp [h2, beq_iff_eq.mp hc]⟩
      · rw [if_neg hc] at h
        cases h

theorem takeWhile_append_stop (p : Char → Bool) (l1 l2 : List Char)
    (h1 : ∀ c ∈ l1, p c = true) (h2 : ∀ x, l2.head? = some x → p x = false) :
    (l1 ++ l2).takeWhile p = l1 ∧ (l1 ++ l2).dropWhile p = l2 := by
  induction l1 with
  | nil =>
    cases l2 with
    | nil => exact ⟨rfl, rfl⟩
    | cons x l =>
      have := h2 x rfl
      simp [List.takeWhile_cons, List.dropWhile_cons, this]
  | cons a l ih =>
    have ha := h1 a (List.mem_cons_self _ _)
    obtain ⟨i1, i2⟩ := ih fun c hc => h1 c (List.mem_cons_of_mem _ hc)
    simp [List.takeWhile_cons, List.dropWhile_cons, ha, i1, i2]

theorem findSome?_unique {α β : Type} {f : α → Option β} {l : List α} {a : α} {b : β}
    (ha : a ∈ l) (hb : f a = some b) (huniq : ∀ x ∈ l, ∀ y, f x = some y → y = b) :
    l.findSome? f = some b := by
  cases h : l.findSome? f with
  | none =>
    rw [List.findSome?_eq_none_iff] at h
    rw [h a ha] at hb
    cases hb
  | some y =>
    obtain ⟨x, hx, hy⟩ := List.exists_of_findSome?_eq_some h
    rw [huniq x hx y hy]

theorem phrase_facts :
    ∀ p ∈ NAME_PHRASES, p.map Char.toLower = p ∧ p.head?.map isWordChar = some true ∧
      ∀ q ∈ NAME_PHRASES, (q <+: p ∨ p <+: q) → q = p := by
  decide

theorem getLast?_isAlpha {name : List Char} (hne : name ≠ [])
    (hal : ∀ c ∈ name, c.isAlpha = true) : isWordAt name.getLast? = true := by
  rw [List.getLast?_eq_getLast _ hne]
  exact isWordChar_of_isAlpha (hal _ (List.getLast_mem hne))

theorem not_alpha_of_not_wordAt {l : List Char} (h : isWordAt l.head? = false) :
    ∀ x, l.head? = some x → x.isAlpha = false := by
  intro x hx
  rw [hx] at h
  rw [Bool.eq_false_iff]
  intro ha
  rw [show isWordAt (some x) = isWordChar x from rfl, isWordChar_of_isAlpha ha] at h
  cases h

/-- The second half of the pattern, after the phrase. -/
theorem name_part (ws name post : List Char)
    (hws : ws ≠ []) (hsp : ∀ c ∈ ws, isJsSpace c = true)
    (hname : name ≠ []) (hal : ∀ c ∈ name, c.isAlpha = true)
    (hpost : isWordAt post.head? = false) :
    (let rest := ws ++ (name ++ post)
     let ws1 := rest.takeWhile isJsSpace
     let rest1 := rest.dropWhile isJsSpace
     let name1 := rest1.takeWhile Char.isAlpha
     let rest2 := rest1.dropWhile Char.isAlpha
     if (!ws1.isEmpty && !name1.isEmpty && wordBoundary name1.getLast? rest2.head?) = true then
       some name1
     else none) = some name := by
  have hstop : ∀ x, (name ++ post).head? = some x → isJsSpace x = false := by
    intro x hx
    rw [List.head?_append_of_ne_nil _ hname] at hx
    have hx' := List.mem_of_mem_head? hx
    rw [Bool.eq_false_iff]
    intro hs
    rw [not_space_of_word (isWordChar_of_isAlpha (hal x hx'))] at hs
    cases hs
  obtain ⟨t1, d1⟩ := takeWhile_append_stop isJsSpace ws (name ++ post) hsp hstop
  obtain ⟨t2, d2⟩ := takeWhile_append_stop Char.isAlpha name post hal
    (not_alpha_of_not_wordAt hpost)
  simp only [t1, d1, t2, d2]
  have e1 : ws.isEmpty = false := by cases ws <;> simp_all
  have e2 : name.isEmpty = false := by cases name <;> simp_all
  simp [e1, e2, wordBoundary, getLast?_isAlpha hname hal, hpost]

theorem matchNameAt_complete (prev : Option Char) (phrase ws name post : List Char)
    (hphrase : phrase ∈ NAME_PHRASES)
    (hws : ws ≠ []) (hsp : ∀ c ∈ ws, isJsSpace c = true)
    (hname : name ≠ []) (hal : ∀ c ∈ name, c.isAlpha = true)
    (hprev : isWordAt prev = false) (hpost : isWordAt post.head? = false) :
    matchNameAt prev (phrase ++ (ws ++ (name ++ post))) = some name := by
  obtain ⟨hlow, hhead, huniq⟩ := phrase_facts phrase hphrase
  have hne : phrase ≠ [] := by
    rintro rfl
    simp at hhead
  have hb : wordBoundary prev (phrase ++ (ws ++ (name ++ post))).head? = true := by
    rw [List.head?_append_of_ne_nil _ hne]
    cases hp : phrase.head? with
    | none => simp [hp] at hhead
    | some c =>
      simp only [hp, Option.map_some', Option.some.injEq] at hhead
      show (isWordAt prev != isWordAt (some c)) = true
      rw [hprev, show isWordAt (some c) = isWordChar c from rfl, hhead]
      rfl
  unfold matchNameAt
  rw [if_pos hb]
  apply findSome?_unique hphrase
  · simp only [matchLit_append]
    exact name_part ws name post hws hsp hname hal hpost
  · intro q hq y hy
    cases hm : matchLit q (phrase ++ (ws ++ (name ++ post))) with
    | none => simp [hm] at hy
    | some r =>
      obtain ⟨m, rest⟩ := r
      obtain ⟨hs, hmq⟩ := matchLit_some hm
      have hcomp : m <+: phrase ∨ phrase <+: m :=
        List.prefix_or_prefix_of_prefix ⟨rest, hs.symm⟩ ⟨_, rfl⟩
      have hcomp' : q <+: phrase ∨ phrase <+: q := by
        have hq' := (phrase_facts q hq).1
        rcases hcomp with h | h
        · have := h.map Char.toLower
          rw [hmq, hq', hlow] at this
          exact Or.inl this
        · have := h.map Char.toLower
          rw [hmq, hq', hlow] at this
          exact Or.inr this
      have hqp := huniq q hq hcomp'
      subst hqp
      simp only [matchLit_append] at hy
      rw [name_part ws name post hws hsp hname hal hpost] at hy
      exact (Option.some.inj hy).symm

theorem matchNameAt_sound {prev : Option Char} {s name : List Char}
    (hlow : ∀ c ∈ s, c.isUpper = false) (h : matchNameAt prev s = some name) :
    ∃ phrase ws post, s = phrase ++ (ws ++ (name ++ post)) ∧
      phrase ∈ NAME_PHRASES ∧
      ws ≠ [] ∧ (∀ c ∈ ws, isJsSpace c = true) ∧
      name ≠ [] ∧ (∀ c ∈ name, c.isAlpha = true) ∧
      isWordAt prev = false ∧ isWordAt post.head? = false := by
  unfold matchNameAt at h
  by_cases hb : wordBoundary prev s.head? = true
  · rw [if_pos hb] at h
    obtain ⟨p, hp, hbody⟩ := List.exists_of_findSome?_eq_some h
    cases hm : matchLit p s with
    | none => simp [hm] at hbody
    | some r =>
      obtain ⟨m, rest⟩ := r
      obtain ⟨hs, hmp⟩ := matchLit_some hm
      obtain ⟨hplow, hhead, -⟩ := phrase_facts p hp
      have hmeq : m = p := by
        have hml : m.map Char.toLower = m := by
          conv_rhs => rw [← List.map_id m]
          apply List.map_congr_left
          intro c hc
          exact toLower_eq_self (hlow c (by rw [hs]; exact List.mem_append_left _ hc))
        rw [hml, hplow] at hmp
        exact hmp
      subst hmeq
      simp only [hm] at hbody
      split at hbody
      · rename_i hcond
        simp only [Bool.and_eq_true, Bool.not_eq_true', List.isEmpty_eq_false] at hcond
        obtain ⟨⟨hws, hnm⟩, hwb⟩ := hcond
        have hname := Option.some.inj hbody
        have hne : m ≠ [] := by
          rintro rfl
          simp at hhead
        have hheads : isWordAt s.head? = true := by
          rw [hs, List.head?_append_of_ne_nil _ hne]
          cases hp' : m.head? with
          | none => simp [hp'] at hhead
          | some c =>
            simp only [hp', Option.map_some', Option.some.injEq] at hhead
            exact hhead
        have hprev : isWordAt prev = false := by
          simp only [wordBoundary, hheads] at hb
          cases hq : isWordAt prev with
          | false => rfl
          | true => simp [hq] at hb
        have hnne : name ≠ [] := by
          rw [← hname]
          intro h0
          simp [h0] at hnm
        have hal : ∀ c ∈ name, c.isAlpha = true := by
          intro c hc
          rw [← hname] at hc
          exact List.mem_takeWhile_imp hc
        have hpost : isWordAt ((rest.dropWhile isJsSpace).dropWhile Char.isAlpha).head? =
            false := by
          rw [hname] at hwb
          simp only [wordBoundary, getLast?_isAlpha hnne hal] at hwb
          cases hq : isWordAt ((rest.dropWhile isJsSpace).dropWhile Char.isAlpha).head? with
          | false => rfl
          | true => simp [hq] at hwb
        refine ⟨m, rest.takeWhile isJsSpace,
          (rest.dropWhile isJsSpace).dropWhile Char.isAlpha, ?_, hp, ?_, ?_, hnne, hal, hprev,
          hpost⟩
        · rw [← hname, List.takeWhile_append_dropWhile, List.takeWhile_append_dropWhile]
          exact hs
        · intro h0
          simp [h0] at hws
        · intro c hc
          exact List.mem_takeWhile_imp hc
      · cases hbody
  · rw [if_neg hb] at h
    cases h

theorem getLast?_snoc (acc : List Char) (c : Char) : (acc ++ [c]).getLast? = some c := by
  simp

theorem searchName_none (acc s : List Char)
    (h : ∀ pre s', s = pre ++ s' → matchNameAt (acc ++ pre).getLast? s' = none) :
    searchName acc.getLast? s = none := by
  induction s generalizing acc with
  | nil =>
    have := h [] [] rfl
    rw [List.append_nil] at this
    exact this
  | cons c cs ih =>
    have h0 := h [] (c :: cs) rfl
    rw [List.append_nil] at h0
    unfold searchName
    rw [h0]
    have := ih (acc ++ [c]) (by
      intro pre s' hs
      have := h (c :: pre) s' (by rw [hs]; rfl)
      rw [List.append_assoc]
      exact this)
    rw [getLast?_snoc] at this
    exact this

theorem searchName_first (acc pre s' name : List Char)
    (hnone : ∀ pre1 s1, pre ++ s' = pre1 ++ s1 → pre1.length < pre.length →
      matchNameAt (acc ++ pre1).getLast? s1 = none)
    (hm : matchNameAt (acc ++ pre).getLast? s' = some name) :
    searchName acc.getLast? (pre ++ s') = some name := by
  induction pre generalizing acc with
  | nil =>
    rw [List.append_nil] at hm
    cases s' with
    | nil => exact hm
    | cons c cs =>
      show searchName acc.getLast? (c :: cs) = some name
      unfold searchName
      rw [hm]
  | cons c pre ih =>
    have h0 : matchNameAt acc.getLast? (c :: (pre ++ s')) = none := by
      have := hnone [] (c :: pre ++ s') rfl (by simp)
      rw [List.append_nil] at this
      exact this
    show searchName acc.getLast? (c :: (pre ++ s')) = some name
    unfold searchName
    rw [h0]
    have := ih (acc ++ [c]) (by
      intro pre1 s1 hs hlen
      have := hnone (c :: pre1) s1 (by rw [List.cons_append, hs]; rfl) (by simpa using hlen)
      rw [List.append_assoc]
      exact this) (by
      rw [List.append_assoc]
      exact hm)
    rw [getLast?_snoc] at this
    exact this

theorem searchName_some (acc s name : List Char) (h : searchName acc.getLast? s = some name) :
    ∃ pre s', s = pre ++ s' ∧ matchNameAt (acc ++ pre).getLast? s' = some name := by
  induction s generalizing acc with
  | nil => exact ⟨[], [], rfl, by rw [List.append_nil]; exact h⟩
  | cons c cs ih =>
    unfold searchName at h
    cases hm : matchNameAt acc.getLast? (c :: cs) with
    | some n =>
      rw [hm] at h
      exact ⟨[], c :: cs, rfl, by rw [List.append_nil, hm]; exact h⟩
    | none =>
      rw [hm] at h
      have h' : searchName (acc ++ [c]).getLast? cs = some name := by
        rw [getLast?_snoc]
        exact h
      obtain ⟨pre, s', hs, hmatch⟩ := ih (acc ++ [c]) h'
      refine ⟨c :: pre, s', by rw [hs]; rfl, ?_⟩
      rw [List.append_assoc] at hmatch
      exact hmatch

/-- A name captured from a lower-cased message is a non-empty run of ASCII
small letters. -/
theorem searchName_name {message name : List Char}
    (h : searchName none (toLowerCase message) = some name) :
    name ≠ [] ∧ ∀ c ∈ name, c.isLower = true := by
  obtain ⟨pre, s', hs, hm⟩ := searchName_some [] _ _ h
  have hlow : ∀ c ∈ s', c.isUpper = false := by
    intro c hc
    exact not_isUpper_of_mem_toLowerCase (by rw [hs]; exact List.mem_append_right _ hc)
  obtain ⟨phrase, ws, post, hs', -, -, -, hne, hal, -, -⟩ := matchNameAt_sound hlow hm
  refine ⟨hne, ?_⟩
  intro c hc
  have hmem : c ∈ s' := by
    rw [hs']
    exact List.mem_append_right _ (List.mem_append_right _ (List.mem_append_left _ hc))
  have h1 := hlow c hmem
  have h2 := hal c hc
  simp only [Char.isAlpha, Bool.or_eq_true, h1, Bool.false_eq_true, false_or] at h2
  exact h2

theorem mem_phrases_iff (p : List Char) :
    p ∈ NAME_PHRASES ↔
      (p = "do you know".toList ∨ p = "tell me about".toList ∨
        p = "who is".toList ∨ p = "what about".toList) := by
  constructor
  · intro h
    simp only [NAME_PHRASES, List.map_cons, List.map_nil, List.mem_cons, List.mem_singleton,
      List.not_mem_nil, or_false] at h
    exact h
  · intro h
    rcases h with rfl | rfl | rfl | rfl <;> decide

theorem searchName_of_first {lower pre name : List Char}
    (hlow : ∀ c ∈ lower, c.isUpper = false)
    (hocc : NameOccurrence lower pre name)
    (hfirst : ∀ pre1 name1, NameOccurrence lower pre1 name1 → pre.length ≤ pre1.length) :
    searchName none lower = some name := by
  obtain ⟨phrase, ws, post, hs, hp, hws, hsp, hne, hal, hpre, hpost⟩ := hocc
  have hm := matchNameAt_complete pre.getLast? phrase ws name post
    ((mem_phrases_iff phrase).mpr hp) hws hsp hne hal hpre hpost
  have := searchName_first [] pre (phrase ++ (ws ++ (name ++ post))) name (by
    intro pre1 s1 hsplit hlen
    cases hm1 : matchNameAt ([] ++ pre1).getLast? s1 with
    | none => rfl
    | some n =>
      exfalso
      have hlow1 : ∀ c ∈ s1, c.isUpper = false := by
        intro c hc
        apply hlow
        rw [hs, hsplit]
        exact List.mem_append_right _ hc
      obtain ⟨ph1, ws1, post1, e1, a1, a2, a3, a4, a5, a6, a7⟩ := matchNameAt_sound hlow1 hm1
      have hocc1 : NameOccurrence lower pre1 n :=
        ⟨ph1, ws1, post1, by rw [hs, hsplit, e1], (mem_phrases_iff ph1).mp a1, a2, a3, a4, a5,
          by simpa using a6, a7⟩
      have := hfirst pre1 n hocc1
      omega) (by simpa using hm)
  rw [hs]
  exact this

theorem searchName_of_none {lower : List Char}
    (hlow : ∀ c ∈ lower, c.isUpper = false)
    (hno : ∀ pre name, ¬ NameOccurrence lower pre name) :
    searchName none lower = none := by
  apply searchName_none []
  intro pre s' hs
  cases hm : matchNameAt ([] ++ pre).getLast? s' with
  | none => rfl
  | some n =>
    exfalso
    have hlow1 : ∀ c ∈ s', c.isUpper = false := by
      intro c hc
      apply hlow
      rw [hs]
      exact List.mem_append_right _ hc
    obtain ⟨ph1, ws1, post1, e1, a1, a2, a3, a4, a5, a6, a7⟩ := matchNameAt_sound hlow1 hm
    exact hno pre n ⟨ph1, ws1, post1, by rw [hs, e1], (mem_phrases_iff ph1).mp a1, a2, a3, a4, a5,
      by simpa using a6, a7⟩

theorem searchName_none_elim (acc s : List Char) (h : searchName acc.getLast? s = none) :
    ∀ pre s', s = pre ++ s' → matchNameAt (acc ++ pre).getLast? s' = none := by
  intro pre s' hs
  cases hm : matchNameAt (acc ++ pre).getLast? s' with
  | none => rfl
  | some n =>
    have := searchName_some acc s
    induction pre generalizing acc s with
    | nil =>
      rw [List.append_nil] at hm
      rw [List.nil_append] at hs
      subst hs
      cases s with
      | nil =>
        rw [show searchName acc.getLast? [] = matchNameAt acc.getLast? [] from rfl, hm] at h
        cases h
      | cons c cs =>
        unfold searchName at h
        rw [hm] at h
        cases h
    | cons c pre ih =>
      subst hs
      rw [List.cons_append] at h
      unfold searchName at h
      cases hm0 : matchNameAt acc.getLast? (c :: (pre ++ s')) with
      | some n0 =>
        rw [hm0] at h
        cases h
      | none =>
        rw [hm0] at h
        have h' : searchName (acc ++ [c]).getLast? (pre ++ s') = none := by
          rw [getLast?_snoc]
          exact h
        exact ih (acc ++ [c]) (pre ++ s') h' rfl (by rw [List.append_assoc]; exact hm)
          (searchName_some _ _)

theorem no_occurrence_of_searchName_none {lower : List Char}
    (h : searchName none lower = none) : ∀ pre name, ¬ NameOccurrence lower pre name := by
  rintro pre name ⟨phrase, ws, post, hs, hp, hws, hsp, hne, hal, hpre, hpost⟩
  have hm := matchNameAt_complete pre.getLast? phrase ws name post
    ((mem_phrases_iff phrase).mpr hp) hws hsp hne hal hpre hpost
  have := searchName_none_elim [] lower h pre _ hs
  rw [List.nil_append, hm] at this
  cases this

theorem toNat_toUpper (c : Char) :
    c.toUpper.toNat = if 97 ≤ c.toNat ∧ c.toNat ≤ 122 then c.toNat - 32 else c.toNat := by
  by_cases h : 97 ≤ c.toNat ∧ c.toNat ≤ 122
  · have h' : c.toNat ≥ 97 ∧ c.toNat ≤ 122 := h
    rw [if_pos h, Char.toUpper, if_pos h']
    exact toNat_ofNat_small _ (by omega)
  · have h' : ¬ (c.toNat ≥ 97 ∧ c.toNat ≤ 122) := h
    rw [if_neg h, Char.toUpper, if_neg h']

theorem isUpper_toUpper {c : Char} (h : c.isLower = true) : c.toUpper.isUpper = true := by
  rw [isLower_iff] at h
  rw [isUpper_iff, toNat_toUpper, if_pos h]
  omega

/-! ## The claims about the text helpers and the scorer -/

/-- C9 (as stated, refuted): `normalize` keeps the underscore, which belongs to
`\w`: `normalize("a_b")` is `"a_b"`, whose middle character is neither a
letter, a digit nor a space. -/
theorem normalize_keeps_underscore :
    normalize (some "a_b".toList) = "a_b".toList ∧
    ¬ (∀ c ∈ normalize (some "a_b".toList),
        c.isAlpha = true ∨ c.isDigit = true ∨ c = ' ') := by
  refine ⟨by decide, ?_⟩
  intro h
  have := h '_' (by decide)
  revert this
  decide

/-- C9 (amended): for every input, absent or not, `normalize s` is the maximal
runs of `\w` characters (ASCII letters, digits, underscores) of the lower-cased
input, in order, joined by single spaces; every other character of the
lower-cased input only separates two runs or is dropped at either end.  So
every character of `normalize s` is an ASCII small letter, a digit, an
underscore or a space; no two spaces are adjacent; the result neither starts
nor ends with a space; with the spaces taken out it is the lower-cased input
restricted to its `\w` characters; the absent and the empty input both give
the empty string; and a `\w` character is an ASCII letter, a digit or an
underscore. -/
theorem normalize_shape (s : Option (List Char)) :
    normalize s = [' '].intercalate (wordRuns (toLowerCase (orEmpty s))) ∧
    (∀ c ∈ normalize s, c.isLower = true ∨ c.isDigit = true ∨ c = '_' ∨ c = ' ') ∧
    List.Chain' (fun x y => ¬ (x = ' ' ∧ y = ' ')) (normalize s) ∧
    (normalize s).head? ≠ some ' ' ∧
    (normalize s).getLast? ≠ some ' ' ∧
    (normalize s).filter (fun c => c != ' ') = (toLowerCase (orEmpty s)).filter isWordChar ∧
    normalize none = [] ∧ normalize (some []) = [] ∧
    (∀ c, isWordChar c = true ↔ (c.isAlpha = true ∨ c.isDigit = true ∨ c = '_')) := by
  refine ⟨normalize_eq_runs s, ?_, chain_normalize s, head?_normalize s, getLast?_normalize s,
    ?_, by decide, by decide, ?_⟩
  · intro c hc
    rcases mem_normalize hc with h | ⟨hw, hu⟩
    · exact Or.inr (Or.inr (Or.inr h))
    · rw [isWordChar_iff] at hw
      rw [Bool.eq_false_iff, Ne, isUpper_iff] at hu
      rw [isLower_iff, isDigit_iff, eq_underscore_iff]
      omega
  · have h1 : (normalize s).filter (fun c => c != ' ') =
        (normalize s).filter (fun c => !isJsSpace c) := by
      apply List.filter_congr
      intro c hc
      rcases mem_normalize hc with h | ⟨hw, -⟩
      · subst h; decide
      · have hs := not_space_of_word hw
        have hne : c ≠ ' ' := by
          rintro rfl
          rw [isJsSpace_space] at hs
          cases hs
        simp [hs, hne]
    rw [h1]
    unfold normalize collapseSpaces
    rw [filter_trim, filter_collapseAux, filter_replaceNonWord]
  · intro c
    simp [isWordChar, Char.isAlphanum, or_assoc]

/-- C9 (witness): punctuation between two words
leaves one space, and U+212A, whose lower-case form is `k`, stays in its run. -/
theorem normalize_shape_examples :
    normalize (some "Hello,  World! a_b".toList) = "hello world a_b".toList ∧
    normalize (some ['a', Char.ofNat 0x212A, 'b', Char.ofNat 0xE9, 'c']) = "akb c".toList :=
  ⟨(normalize_shape _).1.trans (by decide), (normalize_shape _).1.trans (by decide)⟩

/-- C3 (as stated, refuted): the normalized form of `"what is python"` contains
the normalized form of `"what is"`, yet the score of the two is `0`: `"what is"`
has no keyword, and the test for an empty keyword set returns before the
boost. -/
theorem keywordScore_containment_empty :
    normalize (some "what is".toList) <:+: normalize (some "what is python".toList) ∧
    keywordScore (some "what is python".toList) (some "what is".toList) = 0 ∧
    ¬ ((4 : ℚ) / 5 ≤ keywordScore (some "what is python".toList) (some "what is".toList)) := by
  have h : keywordScore (some "what is python".toList) (some "what is".toList) = 0 := by
    rw [keywordScore_eq, if_pos (Or.inr (by decide))]
  refine ⟨by decide, h, ?_⟩
  rw [h]
  norm_num

/-- C3 (amended): when both keyword sets are non-empty and the normalized form
of one argument contains the normalized form of the other, `keywordScore` is at
least `0.8`. -/
theorem keywordScore_containment (a b : Option (List Char))
    (hA : keywords a ≠ []) (hB : keywords b ≠ [])
    (hc : normalize b <:+: normalize a ∨ normalize a <:+: normalize b) :
    (4 : ℚ) / 5 ≤ keywordScore a b := by
  rw [keywordScore_eq, if_neg (by tauto), if_pos hc]
  exact le_max_right _ _

/-- C3 (witness): `"king of spain"` against `"Spain?"`. -/
theorem keywordScore_containment_witness :
    (4 : ℚ) / 5 ≤ keywordScore (some "king of spain".toList) (some "Spain?".toList) :=
  keywordScore_containment _ _ (by decide) (by decide) (by decide)

/-- C4: `keywordScore` does not depend on the order of its arguments. -/
theorem keywordScore_comm (a b : Option (List Char)) :
    keywordScore a b = keywordScore b a := by
  rw [keywordScore_eq, keywordScore_eq]
  have hq : ((((keywords a).toFinset ∩ (keywords b).toFinset).card : ℚ) /
      (((keywords a).toFinset ∪ (keywords b).toFinset).card : ℚ)) =
      ((((keywords b).toFinset ∩ (keywords a).toFinset).card : ℚ) /
      (((keywords b).toFinset ∪ (keywords a).toFinset).card : ℚ)) := by
    rw [Finset.inter_comm, Finset.union_comm]
  exact if_congr or_comm rfl (if_congr or_comm (by rw [hq]) hq)

/-- C5: the score of a string against itself is `1` when it has a keyword and
`0` when it has none. -/
theorem keywordScore_self (a : Option (List Char)) :
    keywordScore a a = if keywords a = [] then 0 else 1 := by
  by_cases h : keywords a = []
  · rw [keywordScore_eq, if_pos (Or.inl h), if_pos h]
  · have hcard : ((keywords a).toFinset.card : ℚ) ≠ 0 := by
      rw [Nat.cast_ne_zero, Ne, Finset.card_eq_zero, List.toFinset_eq_empty_iff]
      exact h
    rw [keywordScore_eq, if_neg (by tauto), if_pos (Or.inl (List.infix_refl _)),
      Finset.inter_self, Finset.union_self, div_self hcard, if_neg h]
    norm_num

/-! ## The claim about the dataset matcher -/

/-- The value of `findBestAnswer` as a search for the first entry of greatest
score. -/
theorem findBestAnswer_eq (qaData : List QAEntry) (message : List Char) :
    findBestAnswer qaData message =
      if ∃ e ∈ qaData, (11 : ℚ) / 20 ≤
          keywordScore (some message) (some (orEmpty e.question)) then
        (qaData.find? fun e => decide (∀ x ∈ qaData,
          keywordScore (some message) (some (orEmpty x.question)) ≤
          keywordScore (some message) (some (orEmpty e.question)))).map QAEntry.answer
      else none := by
  have hfold := foldl_keep_best
    (fun e : QAEntry => keywordScore (some message) (some (orEmpty e.question))) qaData none 0
  have hstep : findBestStep message =
      fun acc item =>
        if (fun e : QAEntry => keywordScore (some message) (some (orEmpty e.question))) item
            > acc.2 then
          (some item,
            (fun e : QAEntry => keywordScore (some message) (some (orEmpty e.question))) item)
        else acc := rfl
  unfold findBestAnswer
  rw [hstep, hfold]
  by_cases hex : ∃ e ∈ qaData, (11 : ℚ) / 20 ≤
      keywordScore (some message) (some (orEmpty e.question))
  · rw [if_pos hex]
    obtain ⟨e0, he0, h0⟩ := hex
    have hsame : (qaData.find? fun e => decide
        (0 < keywordScore (some message) (some (orEmpty e.question)) ∧ ∀ x ∈ qaData,
          keywordScore (some message) (some (orEmpty x.question)) ≤
          keywordScore (some message) (some (orEmpty e.question)))) =
        (qaData.find? fun e => decide (∀ x ∈ qaData,
          keywordScore (some message) (some (orEmpty x.question)) ≤
          keywordScore (some message) (some (orEmpty e.question)))) := by
      apply find?_congr_mem
      intro e _
      rw [decide_eq_decide]
      constructor
      · exact fun h => h.2
      · intro h
        refine ⟨?_, h⟩
        have := h e0 he0
        linarith
    rw [hsame]
    cases hfind : (qaData.find? fun e => decide (∀ x ∈ qaData,
          keywordScore (some message) (some (orEmpty x.question)) ≤
          keywordScore (some message) (some (orEmpty e.question)))) with
    | none => rfl
    | some e =>
      have hP := List.find?_some hfind
      rw [decide_eq_true_eq] at hP
      have hge : keywordScore (some message) (some (orEmpty e.question)) ≥ 11 / 20 :=
        le_trans h0 (hP e0 he0)
      simp only [hge, if_true, Option.map_some']
  · rw [if_neg hex]
    push_neg at hex
    cases hfind : (qaData.find? fun e => decide
        (0 < keywordScore (some message) (some (orEmpty e.question)) ∧ ∀ x ∈ qaData,
          keywordScore (some message) (some (orEmpty x.question)) ≤
          keywordScore (some message) (some (orEmpty e.question)))) with
    | none => rfl
    | some e =>
      have hmem := List.mem_of_find?_eq_some hfind
      have hlt := hex e hmem
      have hn : ¬ keywordScore (some message) (some (orEmpty e.question)) ≥ 11 / 20 :=
        not_le.mpr hlt
      simp only [hn, if_false]

/-- C1: when some entry scores at least `0.55` against the message, that is
when the greatest score is at least `0.55`, `findBestAnswer` returns the
answer of the first entry, in dataset order, whose score is the greatest of
all entries: every entry scores at most as much and every earlier entry scores
strictly less.  When every entry scores below `0.55`, and in particular when
the dataset is empty, it returns absent. -/
theorem findBestAnswer_spec (qaData : List QAEntry) (message : List Char) :
    ((∃ e ∈ qaData, (11 : ℚ) / 20 ≤
        keywordScore (some message) (some (orEmpty e.question))) →
      ∃ pre e post, qaData = pre ++ e :: post ∧
        (∀ x ∈ qaData, keywordScore (some message) (some (orEmpty x.question)) ≤
          keywordScore (some message) (some (orEmpty e.question))) ∧
        (∀ x ∈ pre, keywordScore (some message) (some (orEmpty x.question)) <
          keywordScore (some message) (some (orEmpty e.question))) ∧
        findBestAnswer qaData message = some e.answer) ∧
    ((∀ e ∈ qaData, keywordScore (some message) (some (orEmpty e.question)) <
        (11 : ℚ) / 20) → findBestAnswer qaData message = none) ∧
    findBestAnswer [] message = none := by
  refine ⟨?_, ?_, rfl⟩
  · intro hex
    rw [findBestAnswer_eq, if_pos hex]
    obtain ⟨e0, he0, -⟩ := hex
    obtain ⟨m, hm, hmax⟩ := exists_greatest
      (fun e : QAEntry => keywordScore (some message) (some (orEmpty e.question))) qaData
      (List.ne_nil_of_mem he0)
    have hsome : (qaData.find? fun e => decide (∀ x ∈ qaData,
        keywordScore (some message) (some (orEmpty x.question)) ≤
        keywordScore (some message) (some (orEmpty e.question)))).isSome = true := by
      rw [List.find?_isSome]
      exact ⟨m, hm, by rw [decide_eq_true_eq]; exact hmax⟩
    obtain ⟨e, he⟩ := Option.isSome_iff_exists.mp hsome
    obtain ⟨hP, pre, post, hsplit, hpre⟩ := List.find?_eq_some.mp he
    rw [decide_eq_true_eq] at hP
    refine ⟨pre, e, post, hsplit, hP, ?_, by rw [he]; rfl⟩
    intro x hx
    have hnot := hpre x hx
    simp only [Bool.not_eq_true', decide_eq_false_iff_not, not_forall, not_le] at hnot
    obtain ⟨y, hy, hlt⟩ := hnot
    exact lt_of_lt_of_le hlt (hP y hy)
  · intro hall
    rw [findBestAnswer_eq, if_neg]
    rintro ⟨e, he, hge⟩
    exact absurd hge (not_le.mpr (hall e he))

theorem score_python_question :
    keywordScore (some "python".toList) (some (orEmpty (some "What is Python?".toList))) = 1 := by
  rw [keywordScore_eq, if_neg (by decide), if_pos (by decide)]
  have h1 : ((keywords (some "python".toList)).toFinset ∩
      (keywords (some (orEmpty (some "What is Python?".toList)))).toFinset).card = 1 := by decide
  have h2 : ((keywords (some "python".toList)).toFinset ∪
      (keywords (some (orEmpty (some "What is Python?".toList)))).toFinset).card = 1 := by decide
  rw [h1, h2]
  norm_num

theorem score_python_word :
    keywordScore (some "python".toList) (some (orEmpty (some "python".toList))) = 1 := by
  rw [keywordScore_eq, if_neg (by decide), if_pos (by decide)]
  have h1 : ((keywords (some "python".toList)).toFinset ∩
      (keywords (some (orEmpty (some "python".toList)))).toFinset).card = 1 := by decide
  have h2 : ((keywords (some "python".toList)).toFinset ∪
      (keywords (some (orEmpty (some "python".toList)))).toFinset).card = 1 := by decide
  rw [h1, h2]
  norm_num

/-- C1 (witness): two entries tie at score `1`; the first one answers. -/
theorem findBestAnswer_spec_witness :
    findBestAnswer
        [{ question := some "What is Python?".toList, answer := "A language.".toList },
         { question := some "python".toList, answer := "A snake.".toList }]
        "python".toList = some "A language.".toList := by
  obtain ⟨pre, e, post, hsplit, -, hfirst, hres⟩ :=
    (findBestAnswer_spec
      [{ question := some "What is Python?".toList, answer := "A language.".toList },
       { question := some "python".toList, answer := "A snake.".toList }]
      "python".toList).1
      ⟨_, List.mem_cons_self _ _, by rw [score_python_question]; norm_num⟩
  rw [hres]
  cases pre with
  | nil =>
    simp only [List.nil_append, List.cons.injEq] at hsplit
    rw [← hsplit.1]
  | cons a pre =>
    simp only [List.cons_append, List.cons.injEq] at hsplit
    obtain ⟨ha, hrest⟩ := hsplit
    have hlt := hfirst a (List.mem_cons_self _ _)
    rw [← ha, score_python_question] at hlt
    cases pre with
    | nil =>
      simp only [List.nil_append, List.cons.injEq] at hrest
      rw [← hrest.1, score_python_word] at hlt
      exact absurd hlt (lt_irrefl _)
    | cons b pre =>
      simp only [List.cons_append, List.cons.injEq] at hrest
      have := hrest.2
      simp at this

/-! ## The claims about the name dialogue -/

/-- C6 (as stated, refuted): containing a phrase followed by white space and a
word is not enough.  `"xwho is priya"` contains `who is`, a space and the word
`priya`, but the phrase does not start at a word boundary: nothing is stored
and the result is absent. -/
theorem detectGenericName_not_every_occurrence :
    (∃ ws name post, "xwho is priya".toList =
        "x".toList ++ ("who is".toList ++ (ws ++ (name ++ post))) ∧
      ws ≠ [] ∧ (∀ c ∈ ws, isJsSpace c = true) ∧
      name ≠ [] ∧ (∀ c ∈ name, c.isAlpha = true) ∧ post = []) ∧
    detectGenericName none "xwho is priya".toList = (none, none) ∧
    detectGenericName (some { name := "rohan".toList, gender := Gender.male })
        "xwho is priya".toList =
      (none, some { name := "rohan".toList, gender := Gender.male }) := by
  refine ⟨⟨" ".toList, "priya".toList, [], ?_, ?_, ?_, ?_, ?_, rfl⟩, ?_, ?_⟩ <;> decide

/-- How the pattern of `detectGenericName` bounds a match.  Only ASCII letters,
digits and the underscore count as `\w`: in `"who is josé"` the captured word
ends before `é` and is `jos`, and in `"éwho is priya"` the phrase starts at a
boundary.  Letters that run into a digit are no match (`"who is priya2"`), and
of two occurrences the leftmost is taken. -/
theorem detectGenericName_boundaries :
    detectGenericName none ("who is jos".toList ++ [Char.ofNat 0xE9]) =
      (some "Is he from RRSDEC Begusarai?".toList,
        some { name := "jos".toList, gender := Gender.male }) ∧
    detectGenericName none (Char.ofNat 0xE9 :: "who is priya".toList) =
      (some "Is she from RRSDEC Begusarai?".toList,
        some { name := "priya".toList, gender := Gender.female }) ∧
    detectGenericName none "who is priya2".toList = (none, none) ∧
    detectGenericName none "who is priya who is rohan".toList =
      (some "Is she from RRSDEC Begusarai?".toList,
        some { name := "priya".toList, gender := Gender.female }) := by
  decide

/-- C6 (amended): take an occurrence of the pattern in the lower-cased message,
that is one of the four phrases, not preceded by a `\w` character (an ASCII
letter, a digit or an underscore), followed by white space and by a word of
ASCII letters that is not followed by a `\w` character, and let it be the
leftmost one.  Then, whatever the pending slot held, `detectGenericName`
stores that word with gender female when it ends in `a` or `i` and male
otherwise, and returns the question for that gender.  When the lower-cased
message has no occurrence at all, it returns absent and leaves the slot as it
was. -/
theorem detectGenericName_spec (lastAskedPerson : Option Pending) (message : List Char) :
    (∀ pre name, NameOccurrence (toLowerCase message) pre name →
      (∀ pre1 name1, NameOccurrence (toLowerCase message) pre1 name1 →
        pre.length ≤ pre1.length) →
      detectGenericName lastAskedPerson message =
        if name.getLast? = some 'a' ∨ name.getLast? = some 'i' then
          (some "Is she from RRSDEC Begusarai?".toList,
            some { name := name, gender := Gender.female })
        else
          (some "Is he from RRSDEC Begusarai?".toList,
            some { name := name, gender := Gender.male })) ∧
    ((∀ pre name, ¬ NameOccurrence (toLowerCase message) pre name) →
      detectGenericName lastAskedPerson message = (none, lastAskedPerson)) := by
  have hlow : ∀ c ∈ toLowerCase message, c.isUpper = false :=
    fun c hc => not_isUpper_of_mem_toLowerCase hc
  constructor
  · intro pre name hocc hfirst
    have hs := searchName_of_first hlow hocc hfirst
    unfold detectGenericName
    simp only [hs, genderOf]
    split <;> rfl
  · intro hno
    have hs := searchName_of_none hlow hno
    unfold detectGenericName
    simp only [hs]

/-- C6 (witness): `"Who is Priya?"` replaces a pending `rohan` by `priya`, female, and
`"hello there"`, which has no occurrence, leaves the pending `rohan` alone. -/
theorem detectGenericName_spec_witness :
    detectGenericName (some { name := "rohan".toList, gender := Gender.male })
        "Who is Priya?".toList =
      (some "Is she from RRSDEC Begusarai?".toList,
        some { name := "priya".toList, gender := Gender.female }) ∧
    detectGenericName (some { name := "rohan".toList, gender := Gender.male })
        "hello there".toList =
      (none, some { name := "rohan".toList, gender := Gender.male }) :=
  ⟨((detectGenericName_spec _ "Who is Priya?".toList).1 [] "priya".toList
      ⟨"who is".toList, " ".toList, "?".toList, by decide, by decide, by decide, by decide,
        by decide, by decide, by decide, by decide⟩
      (fun _ _ _ => Nat.zero_le _)).trans (if_pos (by decide)),
    (detectGenericName_spec _ "hello there".toList).2
      (no_occurrence_of_searchName_none (by decide))⟩

/-- C7 (as stated, refuted): after `"who is Priya"` the message `"yes"` gives
the reply for a girl, which begins with `Aree ` and has the capitalised name
only after it; the reply does not begin with the name. -/
theorem respondGenericName_female_prefix :
    (detectGenericName none "who is Priya".toList).2 =
      some { name := "priya".toList, gender := Gender.female } ∧
    respondGenericName (some { name := "priya".toList, gender := Gender.female })
        "yes".toList =
      (some ("Aree Priya".toList ++ femaleTail), none) ∧
    ¬ ("Priya".toList <+: "Aree Priya".toList ++ femaleTail) := by
  refine ⟨by decide, rfl, ?_⟩
  rintro ⟨t, ht⟩
  have h1 : ("Priya".toList ++ t).head? = some 'P' := rfl
  rw [ht] at h1
  exact absurd h1 (by decide)

/-- C7 (amended): let the pending query have been stored by name-pattern
detection; its name is then a non-empty word of ASCII small letters.  A
following message that equals one of the five affirmative tokens, letter case
aside, makes `respondGenericName` return the template reply of the stored
gender with the name written with an upper-case first letter, at the very
start of the reply for a boy and after the word `Aree ` for a girl, and clears
the slot; with the slot cleared, a further affirmative message is no name
pattern and gets absent from both functions. -/
theorem respondGenericName_confirm (slot0 : Option Pending) (msg0 msg r : List Char)
    (p : Pending)
    (hstored : detectGenericName slot0 msg0 = (some r, some p))
    (haff : toLowerCase msg ∈ AFFIRMATIVE) :
    ∃ c cs, p.name = c :: cs ∧ c.isLower = true ∧ c.toUpper.isUpper = true ∧
      respondGenericName (some p) msg =
        (some (if p.gender = Gender.female then
            "Aree ".toList ++ (c.toUpper :: cs) ++ femaleTail
          else (c.toUpper :: cs) ++ maleTail), none) ∧
      ∀ msg2, toLowerCase msg2 ∈ AFFIRMATIVE →
        detectGenericName none msg2 = (none, none) ∧
        respondGenericName none msg2 = (none, none) := by
  have hname : p.name ≠ [] ∧ ∀ c ∈ p.name, c.isLower = true := by
    unfold detectGenericName at hstored
    cases hs : searchName none (toLowerCase msg0) with
    | none =>
      simp only [hs, Prod.mk.injEq] at hstored
      cases hstored.1
    | some name =>
      simp only [hs, Prod.mk.injEq, Option.some.injEq] at hstored
      rw [← hstored.2]
      exact searchName_name hs
  obtain ⟨hne, hlow⟩ := hname
  obtain ⟨name, gender⟩ := p
  cases name with
  | nil => exact absurd rfl hne
  | cons c cs =>
    have hc := hlow c (List.mem_cons_self _ _)
    refine ⟨c, cs, rfl, hc, isUpper_toUpper hc, ?_, ?_⟩
    · have hcont : AFFIRMATIVE.contains (toLowerCase msg) = true := by
        simpa using haff
      unfold respondGenericName
      simp only [hcont, Bool.not_true, Bool.false_eq_true, if_false]
      cases gender <;> simp [nameReply, capitalize]
    · intro msg2 h2
      refine ⟨?_, rfl⟩
      unfold detectGenericName
      have : searchName none (toLowerCase msg2) = none := by
        revert h2
        generalize toLowerCase msg2 = m
        intro h2
        simp only [AFFIRMATIVE, List.map_cons, List.map_nil, List.mem_cons, List.mem_singleton,
          List.not_mem_nil, or_false] at h2
        rcases h2 with rfl | rfl | rfl | rfl | rfl <;> decide
      simp only [this]

/-- C7 (witness): `rohan`, stored for `"tell me about Rohan"`, confirmed by `"YES"`. -/
theorem respondGenericName_confirm_witness :
    ∃ c cs, "rohan".toList = c :: cs ∧ c.isLower = true ∧ c.toUpper.isUpper = true ∧
      respondGenericName (some { name := "rohan".toList, gender := Gender.male })
          "YES".toList =
        (some (if Gender.male = Gender.female then
            "Aree ".toList ++ (c.toUpper :: cs) ++ femaleTail
          else (c.toUpper :: cs) ++ maleTail), none) ∧
      ∀ msg2, toLowerCase msg2 ∈ AFFIRMATIVE →
        detectGenericName none msg2 = (none, none) ∧
        respondGenericName none msg2 = (none, none) :=
  respondGenericName_confirm none "tell me about Rohan".toList "YES".toList
    "Is he from RRSDEC Begusarai?".toList
    { name := "rohan".toList, gender := Gender.male } (by decide) (by decide)

/-! ## Facts about the chat endpoint -/

theorem orEmpty_ne_nil {v : Option (List Char)} (h : truthy v = true) : orEmpty v ≠ [] := by
  cases v with
  | none => cases h
  | some s =>
    cases s with
    | nil => cases h
    | cons c cs => simp [orEmpty]

theorem chatTry_ok_of_bound (f : List Char → Option (List Char)) (qaData : List QAEntry)
    (groq : Option (List Char)) (web : WebOutcomes) (slot : Option Pending)
    (message : Option (List Char)) (hmsg : truthy message = true) :
    ∃ r slot1, chatTry (some f) qaData groq web slot message = (Except.ok r, slot1) ∧
      r.status = 200 ∧ r.reply ≠ [] := by
  unfold chatTry
  simp only [hmsg, Bool.not_true, Bool.false_eq_true, if_false]
  by_cases h1 : truthy (detectGenericName slot (orEmpty message)).1 = true
  · simp only [h1, if_true]
    exact ⟨_, _, rfl, rfl, orEmpty_ne_nil h1⟩
  · simp only [h1, if_false]
    by_cases h2 : truthy (respondGenericName (detectGenericName slot (orEmpty message)).2
        (orEmpty message)).1 = true
    · simp only [h2, if_true]
      exact ⟨_, _, rfl, rfl, orEmpty_ne_nil h2⟩
    · simp only [h2, if_false]
      by_cases h3 : truthy (f (orEmpty message)) = true
      · simp only [h3, if_true]
        exact ⟨_, _, rfl, rfl, orEmpty_ne_nil h3⟩
      · simp only [h3, if_false]
        by_cases h4 : truthy (findBestAnswer qaData (orEmpty message)) = true
        · simp only [h4, if_true]
          exact ⟨_, _, rfl, rfl, orEmpty_ne_nil h4⟩
        · simp only [h4, if_false]
          by_cases h5 : truthy groq = true
          · simp only [h5, if_true]
            by_cases h5b : (includes (toLowerCase (orEmpty groq)) "meta".toList &&
                includes (toLowerCase (orEmpty message)) "who created".toList) = true
            · simp only [h5b, if_true]
              exact ⟨ok CREATOR_REPLY, _, rfl, rfl, by decide⟩
            · simp only [h5b, if_false]
              exact ⟨_, _, rfl, rfl, orEmpty_ne_nil h5⟩
          · simp only [h5, if_false]
            by_cases h6 : truthy (webFallback web (orEmpty message)).1 = true
            · simp only [h6, Bool.not_true, Bool.false_eq_true, if_false]
              exact ⟨_, _, rfl, rfl, orEmpty_ne_nil h6⟩
            · simp only [h6, Bool.not_false, if_true]
              exact ⟨ok "😕 Sorry, I couldn’t find a clear answer.".toList, _, rfl, rfl, by decide⟩

/-- Were `personalityReply` bound to a function that returns a string or
`null` without throwing and without touching `lastAskedPerson`, the handler
would answer every non-empty message with status 200 and a non-empty reply. -/
theorem postChat_ok_of_bound (f : List Char → Option (List Char)) (qaData : List QAEntry)
    (groq : Option (List Char)) (web : WebOutcomes) (slot : Option Pending)
    (message : Option (List Char)) (hmsg : truthy message = true) :
    (postChat (some f) qaData groq web slot message).1.status = 200 ∧
    (postChat (some f) qaData groq web slot message).1.reply ≠ [] := by
  obtain ⟨r, slot1, h, hs, hr⟩ := chatTry_ok_of_bound f qaData groq web slot message hmsg
  unfold postChat
  rw [h]
  exact ⟨hs, hr⟩

/-! ## The claims about the web fallback and the chat endpoint -/

theorem truthy_iff (v : Option (List Char)) : truthy v = true ↔ v ≠ none ∧ v ≠ some [] := by
  cases v with
  | none => simp [truthy]
  | some s => cases s <;> simp [truthy]

theorem notFound_ne (label : String) (snippet query : List Char)
    (h : label.toList.head? = some 'F') : label.toList ++ snippet ≠ notFound query := by
  intro heq
  have h1 : (label.toList ++ snippet).head? = some 'F' := by
    cases hl : label.toList with
    | nil => rw [hl] at h; cases h
    | cons c cs => rw [hl] at h; exact h
  rw [heq] at h1
  have h2 : (notFound query).head? = some 'I' := rfl
  rw [h2] at h1
  exact absurd h1 (by decide)

/-- C8: when each provider yields a non-empty snippet or nothing, `webFallback`
never returns absent; it returns the snippet of the search-engine scrape with
the label `From Google: ` if there is one, else that of the instant-answer API
with `From DuckDuckGo: `, else that of the encyclopedia API with
`From Wikipedia: `; it returns the templated message, which is the query
between `I couldn't find a clear English answer for “` and `”.`, exactly when
all three are absent; and a later provider is called only when every earlier
one was absent. -/
theorem webFallback_spec (o : WebOutcomes) (query : List Char)
    (hg : o.googleSearch ≠ some []) (hd : o.duckDuckGoSearch ≠ some [])
    (hw : o.wikipediaSearch ≠ some []) :
    (webFallback o query).1 ≠ none ∧
    (∀ g, o.googleSearch = some g →
      (webFallback o query).1 = some ("From Google: ".toList ++ g)) ∧
    (o.googleSearch = none → ∀ d, o.duckDuckGoSearch = some d →
      (webFallback o query).1 = some ("From DuckDuckGo: ".toList ++ d)) ∧
    (o.googleSearch = none → o.duckDuckGoSearch = none → ∀ w, o.wikipediaSearch = some w →
      (webFallback o query).1 = some ("From Wikipedia: ".toList ++ w)) ∧
    ((webFallback o query).1 =
        some ("I couldn\x27t find a clear English answer for “".toList ++ query ++
          "”.".toList) ↔
      o.googleSearch = none ∧ o.duckDuckGoSearch = none ∧ o.wikipediaSearch = none) ∧
    (Provider.duckDuckGo ∈ (webFallback o query).2 → o.googleSearch = none) ∧
    (Provider.wikipedia ∈ (webFallback o query).2 →
      o.googleSearch = none ∧ o.duckDuckGoSearch = none) := by
  have hnf : "I couldn\x27t find a clear English answer for “".toList ++ query ++
      "”.".toList = notFound query := rfl
  rw [hnf]
  obtain ⟨g, d, w⟩ := o
  simp only at hg hd hw
  have tg : truthy g = true ↔ g ≠ none := by
    rw [truthy_iff]; exact ⟨fun h => h.1, fun h => ⟨h, hg⟩⟩
  have td : truthy d = true ↔ d ≠ none := by
    rw [truthy_iff]; exact ⟨fun h => h.1, fun h => ⟨h, hd⟩⟩
  have tw : truthy w = true ↔ w ≠ none := by
    rw [truthy_iff]; exact ⟨fun h => h.1, fun h => ⟨h, hw⟩⟩
  unfold webFallback
  cases g with
  | some gs =>
    have h1 : truthy (some gs) = true := tg.mpr (by simp)
    simp only [h1, if_true, orEmpty, Option.getD_some]
    refine ⟨by simp, by simp, by simp, by simp, ?_, by simp, by simp⟩
    constructor
    · intro h
      exact absurd (Option.some.inj h) (notFound_ne "From Google: " gs query rfl)
    · rintro ⟨h, -⟩
      cases h
  | none =>
    have h1 : truthy (none : Option (List Char)) = false := rfl
    simp only [h1, Bool.false_eq_true, if_false]
    cases d with
    | some ds =>
      have h2 : truthy (some ds) = true := td.mpr (by simp)
      simp only [h2, if_true, orEmpty, Option.getD_some]
      refine ⟨by simp, by simp, by simp, by simp, ?_, by simp, by simp⟩
      constructor
      · intro h
        exact absurd (Option.some.inj h) (notFound_ne "From DuckDuckGo: " ds query rfl)
      · rintro ⟨-, h, -⟩
        cases h
    | none =>
      simp only [h1, Bool.false_eq_true, if_false]
      cases w with
      | some ws =>
        have h3 : truthy (some ws) = true := tw.mpr (by simp)
        simp only [h3, if_true, orEmpty, Option.getD_some]
        refine ⟨by simp, by simp, by simp, by simp, ?_, by simp, by simp⟩
        constructor
        · intro h
          exact absurd (Option.some.inj h) (notFound_ne "From Wikipedia: " ws query rfl)
        · rintro ⟨-, -, h⟩
          cases h
      | none =>
        simp only [h1, Bool.false_eq_true, if_false]
        simp

/-- C8 (witness): the search engine yields nothing and the instant-answer API a
snippet; and no provider yields anything. -/
theorem webFallback_spec_witness :
    (webFallback { googleSearch := none,
                   duckDuckGoSearch := some "Paris is the capital of France.".toList,
                   wikipediaSearch := some "Paris is a city.".toList }
        "capital of France".toList).1 =
      some ("From DuckDuckGo: ".toList ++ "Paris is the capital of France.".toList) ∧
    (webFallback { googleSearch := none, duckDuckGoSearch := none, wikipediaSearch := none }
        "capital of France".toList).1 =
      some ("I couldn\x27t find a clear English answer for “".toList ++
        "capital of France".toList ++ "”.".toList) :=
  ⟨(webFallback_spec _ "capital of France".toList (by decide) (by decide) (by decide)).2.2.1
      rfl _ rfl,
    (webFallback_spec _ "capital of France".toList (by decide) (by decide)
      (by decide)).2.2.2.2.1.mpr ⟨rfl, rfl, rfl⟩⟩

/-- C2 (the program fails the claim): the handler calls `personalityReply`,
which `server.js` never defines.  For the message `"hello"`, which is neither
a name pattern nor a confirmation, the call throws whatever the pending slot
holds and whatever the dataset, the model and the web providers would have
answered, and the handler sends status 500 with `Internal server error.`. -/
theorem postChat_hello_internal_error (qaData : List QAEntry) (groq : Option (List Char))
    (web : WebOutcomes) (lastAskedPerson : Option Pending) :
    postChat none qaData groq web lastAskedPerson (some "hello".toList) =
      ({ status := 500, reply := "Internal server error.".toList }, lastAskedPerson) := by
  cases lastAskedPerson <;> rfl

/-- The length tests of `searchCodeOnline` count UTF-16 code units: a block of
ten code points from outside the Basic Multilingual Plane over three lines has
length 22 and is accepted. -/
theorem searchCodeOnline_counts_code_units :
    searchCodeOnline
        (some [some ["😀😀😀😀😀😀😀😀\n😀\n😀".toList]]) "hello".toList =
      some "```txt\n😀😀😀😀😀😀😀😀\n😀\n😀\n```".toList := by
  decide

/-- C10 (the program fails the claim): `"python code for bubble sort"` is a
coding question and the code search would return a fenced block tagged
`python`, but `webFallback` never calls `isCodingQuestion` or
`searchCodeOnline`: with no provider answering it returns the templated
message, and with a snippet from the search engine it returns that snippet. -/
theorem webFallback_skips_code_search :
    isCodingQuestion "python code for bubble sort".toList = true ∧
    searchCodeOnline
        (some [some ["def bubble_sort(a):\n    a.sort()\n    return a".toList]])
        "python code for bubble sort".toList =
      some "```python\ndef bubble_sort(a):\n    a.sort()\n    return a\n```".toList ∧
    (webFallback { googleSearch := none, duckDuckGoSearch := none, wikipediaSearch := none }
        "python code for bubble sort".toList).1 =
      some (notFound "python code for bubble sort".toList) ∧
    (webFallback { googleSearch := some "Bubble sort is a simple sorting algorithm.".toList,
                   duckDuckGoSearch := none, wikipediaSearch := none }
        "python code for bubble sort".toList).1 =
      some "From Google: Bubble sort is a simple sorting algorithm.".toList := by
  refine ⟨by decide, by decide, rfl, rfl⟩

end Server
